import Mathlib

/-!
# go-blockchain: a verification development of `main.go`

The Go program is embedded shallowly.  Library code the program calls
(`crypto/sha256`, `encoding/json`, IEEE 754 binary32 arithmetic) is written out
as executable definitions so that every definition can be evaluated on concrete
inputs; the functions of `main.go` keep their Go names.

Modelling conventions
* Go `string` values are Lean strings (valid UTF-8 only).
* `int` and `int64` are integers; the one place where the program does
  arithmetic on them (`nonce += 1`) wraps modulo `2^64`.
* `[32]byte` is a list of byte values.
* A Go slice of transactions is `Option (List Transaction)`, `none` being the
  nil slice (`encoding/json` prints nil as `null` and an empty slice as `[]`).
* `time.Now().UnixNano()` is an input of the operations that read the clock.
* A panic and an unfinished loop are the two faults an operation can end in.
* Writes to standard output are not part of the state and are left out.
-/

namespace GoBlockchain

/-! ## crypto/sha256 (FIPS 180-4) -/

namespace SHA256

/-- Round constants. -/
def K : List Nat := [
  0x428a2f98, 0x71374491, 0xb5c0fbcf, 0xe9b5dba5, 0x3956c25b, 0x59f111f1, 0x923f82a4, 0xab1c5ed5,
  0xd807aa98, 0x12835b01, 0x243185be, 0x550c7dc3, 0x72be5d74, 0x80deb1fe, 0x9bdc06a7, 0xc19bf174,
  0xe49b69c1, 0xefbe4786, 0x0fc19dc6, 0x240ca1cc, 0x2de92c6f, 0x4a7484aa, 0x5cb0a9dc, 0x76f988da,
  0x983e5152, 0xa831c66d, 0xb00327c8, 0xbf597fc7, 0xc6e00bf3, 0xd5a79147, 0x06ca6351, 0x14292967,
  0x27b70a85, 0x2e1b2138, 0x4d2c6dfc, 0x53380d13, 0x650a7354, 0x766a0abb, 0x81c2c92e, 0x92722c85,
  0xa2bfe8a1, 0xa81a664b, 0xc24b8b70, 0xc76c51a3, 0xd192e819, 0xd6990624, 0xf40e3585, 0x106aa070,
  0x19a4c116, 0x1e376c08, 0x2748774c, 0x34b0bcb5, 0x391c0cb3, 0x4ed8aa4a, 0x5b9cca4f, 0x682e6ff3,
  0x748f82ee, 0x78a5636f, 0x84c87814, 0x8cc70208, 0x90befffa, 0xa4506ceb, 0xbef9a3f7, 0xc67178f2]

/-- Truncation to a 32-bit word. -/
def w32 (x : Nat) : Nat := x % 4294967296

/-- Rotate a 32-bit word right by `n` bits. -/
def rotr (x n : Nat) : Nat := w32 ((x >>> n) ||| (x <<< (32 - n)))

def bsig0 (x : Nat) : Nat := rotr x 2 ^^^ rotr x 13 ^^^ rotr x 22
def bsig1 (x : Nat) : Nat := rotr x 6 ^^^ rotr x 11 ^^^ rotr x 25
def ssig0 (x : Nat) : Nat := rotr x 7 ^^^ rotr x 18 ^^^ (x >>> 3)
def ssig1 (x : Nat) : Nat := rotr x 17 ^^^ rotr x 19 ^^^ (x >>> 10)
def ch (x y z : Nat) : Nat := (x &&& y) ^^^ ((4294967295 - x) &&& z)
def maj (x y z : Nat) : Nat := (x &&& y) ^^^ (x &&& z) ^^^ (y &&& z)

/-- Message schedule: `extend n w` adds `n` words to `w`, newest word first. -/
def extend : Nat → List Nat → List Nat
  | 0, w => w
  | n + 1, w =>
    extend n (w32 (ssig1 (w.getD 1 0) + w.getD 6 0 + ssig0 (w.getD 14 0) + w.getD 15 0) :: w)

/-- The eight working variables. -/
structure St where
  a : Nat
  b : Nat
  c : Nat
  d : Nat
  e : Nat
  f : Nat
  g : Nat
  h : Nat

/-- One of the 64 rounds, on the pair (round constant, schedule word). -/
def round (s : St) (kw : Nat × Nat) : St :=
  let t1 := s.h + bsig1 s.e + ch s.e s.f s.g + kw.1 + kw.2
  let t2 := bsig0 s.a + maj s.a s.b s.c
  ⟨w32 (t1 + t2), s.a, s.b, s.c, w32 (s.d + t1), s.e, s.f, s.g⟩

/-- Compression of one 16-word block into the chaining value. -/
def compress (hs : St) (block : List Nat) : St :=
  let w := (extend 48 block.reverse).reverse
  let s := (K.zip w).foldl round hs
  ⟨w32 (hs.a + s.a), w32 (hs.b + s.b), w32 (hs.c + s.c), w32 (hs.d + s.d),
   w32 (hs.e + s.e), w32 (hs.f + s.f), w32 (hs.g + s.g), w32 (hs.h + s.h)⟩

/-- The `n` low bytes of `x`, most significant first. -/
def beBytes : Nat → Nat → List Nat
  | 0, _ => []
  | n + 1, x => (x >>> (8 * n)) % 256 :: beBytes n x

/-- Padding: a one bit, zeros, and the bit length as a 64-bit integer. -/
def pad (msg : List Nat) : List Nat :=
  msg ++ [128] ++ List.replicate ((119 - msg.length % 64) % 64) 0 ++ beBytes 8 (8 * msg.length)

/-- Big-endian 32-bit words of a byte list (`n` of them). -/
def words : Nat → List Nat → List Nat
  | 0, _ => []
  | n + 1, b0 :: b1 :: b2 :: b3 :: rest =>
    (b0 * 16777216 + b1 * 65536 + b2 * 256 + b3) :: words n rest
  | _ + 1, _ => []

/-- Fold `compress` over `n` consecutive 16-word blocks. -/
def blocks : Nat → List Nat → St → St
  | 0, _, s => s
  | n + 1, ws, s => blocks n (ws.drop 16) (compress s (ws.take 16))

/-- The 32 digest bytes of a chaining value. -/
def digest (s : St) : List Nat :=
  beBytes 4 s.a ++ beBytes 4 s.b ++ beBytes 4 s.c ++ beBytes 4 s.d ++
  beBytes 4 s.e ++ beBytes 4 s.f ++ beBytes 4 s.g ++ beBytes 4 s.h

/-- Go `sha256.Sum256`. -/
def Sum256 (msg : List Nat) : List Nat :=
  let ws := words ((pad msg).length / 4) (pad msg)
  digest (blocks (ws.length / 16) ws
    ⟨0x6a09e667, 0xbb67ae85, 0x3c6ef372, 0xa54ff53a, 0x510e527f, 0x9b05688c, 0x1f83d9ab, 0x5be0cd19⟩)

end SHA256

/-! ## float32 (IEEE 754 binary32, round to nearest, ties to even) -/

/-- A binary32 value by its three bit fields. -/
structure Float32 where
  sign : Bool
  exp : Fin 256
  mant : Fin 8388608
deriving DecidableEq

namespace Float32

def isNaN (x : Float32) : Bool := x.exp.val == 255 && x.mant.val != 0
def isInf (x : Float32) : Bool := x.exp.val == 255 && x.mant.val == 0

/-- The quiet NaN arithmetic produces; NaN payloads are not observable by the program. -/
def nan : Float32 := ⟨false, 255, 4194304⟩
def inf (sign : Bool) : Float32 := ⟨sign, 255, 0⟩
def zero (sign : Bool) : Float32 := ⟨sign, 0, 0⟩

/-- Magnitude of a finite value, in units of `2^-149`. -/
def mag (x : Float32) : Nat :=
  if x.exp.val = 0 then x.mant.val else (8388608 + x.mant.val) * 2 ^ (x.exp.val - 1)

/-- Signed value of a finite float, in units of `2^-149`. -/
def toInt (x : Float32) : Int := if x.sign then -(x.mag : Int) else (x.mag : Int)

/-- Number of bits `k` has beyond 24 (for `k` below `2^(24 + fuel)`). -/
def excess : Nat → Nat → Nat
  | 0, _ => 0
  | fuel + 1, k => if k < 16777216 then 0 else excess fuel (k / 2) + 1

/-- The float nearest to `± k * 2^-149` (ties to even, overflow to infinity). -/
def round (sign : Bool) (k : Nat) : Float32 :=
  if h : k < 8388608 then ⟨sign, 0, ⟨k, h⟩⟩
  else
    let sh := excess 300 k
    let q := k >>> sh
    let r := k % 2 ^ sh
    let q1 := if 2 * r > 2 ^ sh ∨ (2 * r = 2 ^ sh ∧ q % 2 = 1) then q + 1 else q
    let e := if q1 = 16777216 then sh + 2 else sh + 1
    if h2 : e < 255 then ⟨sign, ⟨e, by omega⟩, ⟨q1 % 8388608, Nat.mod_lt _ (by decide)⟩⟩
    else inf sign

/-- Go `x + y` on float32. -/
def add (x y : Float32) : Float32 :=
  if x.isNaN || y.isNaN then nan
  else if x.isInf then (if y.isInf && (x.sign != y.sign) then nan else x)
  else if y.isInf then y
  else
    let s := x.toInt + y.toInt
    if s = 0 then zero (x.sign && y.sign)
    else round (decide (s < 0)) s.natAbs

/-- Go unary minus on float32. -/
def neg (x : Float32) : Float32 := ⟨!x.sign, x.exp, x.mant⟩

/-- Go `x - y` on float32. -/
def sub (x y : Float32) : Float32 := add x (neg y)

instance : Add Float32 := ⟨add⟩
instance : Sub Float32 := ⟨sub⟩
instance : Neg Float32 := ⟨neg⟩

/-- The float32 value of a natural number literal (rounded if it has to be). -/
def ofNat (n : Nat) : Float32 := round false (n * 2 ^ 149)

end Float32

/-! ## encoding/json, as `json.Marshal` behaves on the values of this program

Strings are written with the HTML-safe escaping `json.Marshal` applies
(Go 1.22 and later for the short forms of backspace and form feed); floats
follow `strconv.AppendFloat(b, f, fmt, -1, 32)`: the shortest decimal that
reads back as the same float32, in the `f` format, or in the `e` format below
`1e-6` and from `1e21` on. -/

namespace JSON

/-- ASCII codes of a string literal. -/
def ascii (s : String) : List Nat := s.toList.map Char.toNat

/-- UTF-8 bytes of a code point. -/
def utf8 (c : Nat) : List Nat :=
  if c < 128 then [c]
  else if c < 2048 then [192 + c / 64, 128 + c % 64]
  else if c < 65536 then [224 + c / 4096, 128 + c / 64 % 64, 128 + c % 64]
  else [240 + c / 262144, 128 + c / 4096 % 64, 128 + c / 64 % 64, 128 + c % 64]

/-- ASCII code of a lowercase hexadecimal digit. -/
def hexDigit (n : Nat) : Nat := if n < 10 then 48 + n else 87 + n

/-- One code point inside a JSON string. -/
def escapeChar (c : Nat) : List Nat :=
  if c = 34 ∨ c = 92 then [92, c]
  else if c = 8 then [92, 98]
  else if c = 12 then [92, 102]
  else if c = 10 then [92, 110]
  else if c = 13 then [92, 114]
  else if c = 9 then [92, 116]
  else if c < 32 ∨ c = 60 ∨ c = 62 ∨ c = 38 then [92, 117, 48, 48, hexDigit (c / 16), hexDigit (c % 16)]
  else if c = 8232 ∨ c = 8233 then [92, 117, 50, 48, 50, hexDigit (c % 16)]
  else utf8 c

/-- A Go string as a JSON string. -/
def string (s : String) : List Nat :=
  [34] ++ (s.toList.map fun c => escapeChar c.toNat).flatten ++ [34]

/-- Decimal digits (ASCII) of a natural number. -/
def nat (n : Nat) : List Nat := (Nat.toDigits 10 n).map Char.toNat

/-- A Go integer as a JSON number. -/
def int (i : Int) : List Nat := if i < 0 then 45 :: nat i.natAbs else nat i.natAbs

/-- Elements separated by commas. -/
def commaSep : List (List Nat) → List Nat
  | [] => []
  | [x] => x
  | x :: y :: rest => x ++ 44 :: commaSep (y :: rest)

/-- A byte array such as `[32]byte`: a JSON array of numbers. -/
def byteArray (bs : List Nat) : List Nat := [91] ++ commaSep (bs.map nat) ++ [93]

/-- Search for the coarsest decimal position at which the value `v` can be cut
and still lie in its rounding interval `lo .. hi` (ends included when `incl`);
`lo`, `v`, `hi` are in units of `2^-151 * 10^-54`, position `j` has weight
`10^(j - 54)`.  Returns the digits as a number with the position of its last
digit. -/
def cut (lo v hi : Nat) (incl : Bool) : Nat → Nat × Nat
  | 0 => (v / 2 ^ 151, 0)
  | j + 1 =>
    let u := 2 ^ 151 * 10 ^ j
    let q := v / u
    let down := decide (lo < q * u) || (incl && lo == q * u)
    let up := decide ((q + 1) * u < hi) || (incl && (q + 1) * u == hi)
    if down && up then
      (if 2 * (v % u) > u ∨ (2 * (v % u) = u ∧ q % 2 = 1) then (q + 1, j) else (q, j))
    else if down then (q, j)
    else if up then (q + 1, j)
    else cut lo v hi incl j

/-- Drop trailing zeros of `q` (at most `fuel` of them). -/
def trim : Nat → Nat → Nat
  | 0, q => q
  | fuel + 1, q => if q % 10 = 0 ∧ q ≠ 0 then trim fuel (q / 10) else q

/-- Shortest digits of a finite non-zero float32 and the position `dp` of the
decimal point: the value reads `0.d1 d2 ... dn * 10^dp`. -/
def shortest (x : Float32) : List Nat × Int :=
  let ulp := 2 ^ (x.exp.val - 1)
  let v := 4 * x.mag
  let lo := if x.mant.val = 0 ∧ 1 < x.exp.val then v - ulp else v - 2 * ulp
  let hi := v + 2 * ulp
  let qj := cut (lo * 10 ^ 54) (v * 10 ^ 54) (hi * 10 ^ 54) (x.mant.val % 2 == 0) 94
  let digs := nat qj.1
  ((nat (trim 60 qj.1)), (digs.length : Int) + (qj.2 : Int) - 54)

/-- The digit at index `i` of `digs`, or `'0'` outside it. -/
def digitAt (digs : List Nat) (i : Int) : Nat :=
  if 0 ≤ i ∧ i < digs.length then digs.getD i.toNat 48 else 48

/-- Format `%e` with the shortest digits, exponent without padding. -/
def fmtE (digs : List Nat) (dp : Int) : List Nat :=
  digs.take 1 ++ (if 1 < digs.length then 46 :: digs.drop 1 else []) ++
  [101, if dp - 1 < 0 then 45 else 43] ++ nat (dp - 1).natAbs

/-- Format `%f` with the shortest digits. -/
def fmtF (digs : List Nat) (dp : Int) : List Nat :=
  (if 0 < dp then (List.range dp.toNat).map (fun i => digitAt digs i) else [48]) ++
  (if dp < digs.length then
    46 :: (List.range ((digs.length : Int) - dp).toNat).map (fun i => digitAt digs (dp + i))
   else [])

/-- A float32 as a JSON number; NaN and the infinities are an encoding error. -/
def float32 (x : Float32) : Option (List Nat) :=
  if x.exp.val = 255 then none
  else if x.mag = 0 then some ((if x.sign then [45] else []) ++ [48])
  else
    let sd := shortest x
    some ((if x.sign then [45] else []) ++
      (if x.mag < (8388608 + 407485) * 2 ^ 106 ∨ (8388608 + 5822247) * 2 ^ 195 ≤ x.mag
       then fmtE sd.1 sd.2 else fmtF sd.1 sd.2))

end JSON

/-! ## main.go -/

def MINING_DIFFICULTY : Int := 3
def MINING_SENDER : String := "THE BLOCKCHAIN"
/-- The constant `1.0` as a float32. -/
def MINING_REWARD : Float32 := ⟨false, 127, 0⟩

/-- How a call can end without returning: a run-time panic, or the loop of
`ProofOfWork` still running when the step budget is used up. -/
inductive Fault where
  | panic
  | fuel
deriving DecidableEq, Repr

deriving instance DecidableEq for Except

structure Transaction where
  from_ : String
  to_ : String
  amount : Float32
deriving DecidableEq

structure Block where
  timestamp : Int
  nonce : Int
  previousHash : List Nat
  transactions : Option (List Transaction)
deriving DecidableEq

structure Blockchain where
  transactionPool : Option (List Transaction)
  chain : List Block
  blockchainAddress : String
deriving DecidableEq

/-- The elements of a slice; the nil slice has none. -/
def elems (sl : Option (List Transaction)) : List Transaction := sl.getD []

/-- Go `append(sl, t)`: the result is never nil. -/
def appendTx (sl : Option (List Transaction)) (t : Transaction) : Option (List Transaction) :=
  some (elems sl ++ [t])

def NewTransaction (from_ to_ : String) (amount : Float32) : Transaction :=
  { from_ := from_, to_ := to_, amount := amount }

/-- Go `Transaction.MarshalJSON`: the three fields `from`, `to`, `amount`. -/
def Transaction.MarshalJSON (transaction : Transaction) : Option (List Nat) :=
  (JSON.float32 transaction.amount).map fun amount =>
    JSON.ascii "\x7b\"from\":" ++ JSON.string transaction.from_ ++
    JSON.ascii ",\"to\":" ++ JSON.string transaction.to_ ++
    JSON.ascii ",\"amount\":" ++ amount ++ JSON.ascii "\x7d"

/-- JSON of a `[]*Transaction`: `null` for nil, else the array of the elements;
an element that cannot be encoded makes the whole encoding fail. -/
def marshalTransactions : Option (List Transaction) → Option (List Nat)
  | none => some (JSON.ascii "null")
  | some ts => (ts.mapM Transaction.MarshalJSON).map fun js => [91] ++ JSON.commaSep js ++ [93]

/-- Go `Block.MarshalJSON`: the four fields `timestamp`, `nonce`, `previous_hash`,
`transactions`. -/
def Block.MarshalJSON (block : Block) : Option (List Nat) :=
  (marshalTransactions block.transactions).map fun transactions =>
    JSON.ascii "\x7b\"timestamp\":" ++ JSON.int block.timestamp ++
    JSON.ascii ",\"nonce\":" ++ JSON.int block.nonce ++
    JSON.ascii ",\"previous_hash\":" ++ JSON.byteArray block.previousHash ++
    JSON.ascii ",\"transactions\":" ++ transactions ++ JSON.ascii "\x7d"

/-- Go `Block.Hash`: SHA-256 of the JSON; when `json.Marshal` fails the error is
dropped and the nil byte slice it returned is hashed. -/
def Block.Hash (block : Block) : List Nat :=
  SHA256.Sum256 (block.MarshalJSON.getD [])

/-- Go `NewBlock`, with the clock reading `now`. -/
def NewBlock (now : Int) (nonce : Int) (previousHash : List Nat)
    (transaction : Option (List Transaction)) : Block :=
  { timestamp := now, nonce := nonce, previousHash := previousHash, transactions := transaction }

/-- Go `Blockchain.AddBlock`: the new block and the new state. -/
def AddBlock (blockchain : Blockchain) (now : Int) (nonce : Int) (previousHash : List Nat) :
    Block × Blockchain :=
  let block := NewBlock now nonce previousHash blockchain.transactionPool
  (block, { blockchain with chain := blockchain.chain ++ [block], transactionPool := some [] })

/-- The zero value `new(Block)`. -/
def zeroBlock : Block :=
  { timestamp := 0, nonce := 0, previousHash := List.replicate 32 0, transactions := none }

/-- Go `NewBlockchain`, with the clock reading `now` for the genesis block. -/
def NewBlockchain (now : Int) (blockchainAddress : String) : Blockchain :=
  let blockchain : Blockchain :=
    { transactionPool := none, chain := [], blockchainAddress := blockchainAddress }
  (AddBlock blockchain now 0 zeroBlock.Hash).2

/-- Go `Blockchain.AddTransaction`. -/
def AddTransaction (blockchain : Blockchain) (from_ to_ : String) (amount : Float32) : Blockchain :=
  let transaction := NewTransaction from_ to_ amount
  { blockchain with transactionPool := appendTx blockchain.transactionPool transaction }

/-- Go `Blockchain.CopyTransactionPool`. -/
def CopyTransactionPool (blockchain : Blockchain) : Option (List Transaction) :=
  (elems blockchain.transactionPool).foldl
    (fun transactions transaction =>
      appendTx transactions (NewTransaction transaction.from_ transaction.to_ transaction.amount))
    (some [])

/-- Go `fmt.Sprintf("%x", h)` of a byte array: two lowercase digits per byte. -/
def hex (bs : List Nat) : String :=
  String.mk ((bs.map fun b => [Char.ofNat (JSON.hexDigit (b / 16)),
    Char.ofNat (JSON.hexDigit (b % 16))]).flatten)

/-- Go `strings.Repeat("0", n)`. -/
def zeroString (n : Nat) : String := String.mk (List.replicate n '0')

/-- Go `Blockchain.ValidProof`; the receiver is not used by the body.
`strings.Repeat` panics on a negative count and the slice
`guessHashStr[:difficulty]` panics beyond the length of the string. -/
def ValidProof (_blockchain : Blockchain) (nonce : Int) (previousHash : List Nat)
    (transactions : Option (List Transaction)) (difficulty : Int) : Except Fault Bool :=
  if difficulty < 0 then Except.error Fault.panic
  else
    let zeros := zeroString difficulty.toNat
    let guessBlock : Block :=
      { timestamp := 0, nonce := nonce, previousHash := previousHash, transactions := transactions }
    let guessHashStr := hex guessBlock.Hash
    if guessHashStr.length < difficulty.toNat then Except.error Fault.panic
    else Except.ok (decide (String.mk (guessHashStr.data.take difficulty.toNat) = zeros))

/-- Go `Blockchain.LastBlock`: indexing an empty chain panics. -/
def LastBlock (blockchain : Blockchain) : Except Fault Block :=
  match blockchain.chain.getLast? with
  | none => Except.error Fault.panic
  | some block => Except.ok block

/-- Go `int` addition on a 64-bit platform wraps around. -/
def wrapInt (i : Int) : Int := (i + 9223372036854775808) % 18446744073709551616 - 9223372036854775808

/-- The loop of `ProofOfWork`, run for at most `fuel` tests of the condition. -/
def ProofOfWork.loop (blockchain : Blockchain) (previousHash : List Nat)
    (transactions : Option (List Transaction)) : Nat → Int → Except Fault Int
  | 0, _ => Except.error Fault.fuel
  | fuel + 1, nonce =>
    match ValidProof blockchain nonce previousHash transactions MINING_DIFFICULTY with
    | Except.error e => Except.error e
    | Except.ok true => Except.ok nonce
    | Except.ok false =>
      ProofOfWork.loop blockchain previousHash transactions fuel (wrapInt (nonce + 1))

/-- Go `Blockchain.ProofOfWork`. -/
def ProofOfWork (fuel : Nat) (blockchain : Blockchain) : Except Fault Int :=
  let transactions := CopyTransactionPool blockchain
  match LastBlock blockchain with
  | Except.error e => Except.error e
  | Except.ok last =>
    let previousHash := last.Hash
    ProofOfWork.loop blockchain previousHash transactions fuel 0

/-- Go `Blockchain.Mining`, with the clock reading `now` for the new block. -/
def Mining (fuel : Nat) (now : Int) (blockchain : Blockchain) : Except Fault (Bool × Blockchain) :=
  let blockchain1 := AddTransaction blockchain MINING_SENDER blockchain.blockchainAddress MINING_REWARD
  match ProofOfWork fuel blockchain1 with
  | Except.error e => Except.error e
  | Except.ok nonce =>
    match LastBlock blockchain1 with
    | Except.error e => Except.error e
    | Except.ok last =>
      let previousHash := last.Hash
      Except.ok (true, (AddBlock blockchain1 now nonce previousHash).2)

/-- Go `Blockchain.CalculateTotalAmount`. -/
def CalculateTotalAmount (blockchain : Blockchain) (blockchainAddress : String) : Float32 :=
  blockchain.chain.foldl
    (fun totalAmount block =>
      (elems block.transactions).foldl
        (fun totalAmount transaction =>
          let amount := transaction.amount
          let totalAmount :=
            if blockchainAddress = transaction.to_ then totalAmount + amount else totalAmount
          if blockchainAddress = transaction.from_ then totalAmount - amount else totalAmount)
        totalAmount)
    (Float32.zero false)

/-! ## Runs of the program: calls made on a chain after `NewBlockchain` -/

/-- A call of one of the methods of `*Blockchain`, with the inputs it takes
from outside: its arguments, the clock reading, the step budget. -/
inductive Call where
  | addTransaction (from_ to_ : String) (amount : Float32)
  | mining (fuel : Nat) (now : Int)
  | copyTransactionPool
  | proofOfWork (fuel : Nat)
  | calculateTotalAmount (blockchainAddress : String)
  | lastBlock
  | validProof (nonce : Int) (previousHash : List Nat) (transactions : Option (List Transaction))
      (difficulty : Int)

/-- The state a call leaves behind.  `AddTransaction` and `Mining` assign
fields of the receiver; the other methods assign none, so the state after them
is the state before, provided they return. -/
def step (blockchain : Blockchain) : Call → Except Fault Blockchain
  | Call.addTransaction from_ to_ amount => Except.ok (AddTransaction blockchain from_ to_ amount)
  | Call.mining fuel now => (Mining fuel now blockchain).map Prod.snd
  | Call.copyTransactionPool => (fun _ => blockchain) <$> Except.ok (CopyTransactionPool blockchain)
  | Call.proofOfWork fuel => (ProofOfWork fuel blockchain).map fun _ => blockchain
  | Call.calculateTotalAmount blockchainAddress =>
    (fun _ => blockchain) <$> Except.ok (CalculateTotalAmount blockchain blockchainAddress)
  | Call.lastBlock => (LastBlock blockchain).map fun _ => blockchain
  | Call.validProof nonce previousHash transactions difficulty =>
    (ValidProof blockchain nonce previousHash transactions difficulty).map fun _ => blockchain

/-- A sequence of calls, one after the other; a fault ends the run. -/
def exec (blockchain : Blockchain) : List Call → Except Fault Blockchain
  | [] => Except.ok blockchain
  | call :: calls =>
    match step blockchain call with
    | Except.error e => Except.error e
    | Except.ok next => exec next calls

/-- The states the program can be in: those a finished run of calls reaches
from a fresh chain. -/
def Reachable (blockchain : Blockchain) : Prop :=
  ∃ (now : Int) (blockchainAddress : String) (calls : List Call),
    exec (NewBlockchain now blockchainAddress) calls = Except.ok blockchain

/-! ## A concrete run, used to evaluate the statements below

The scenario of `main`, with clock readings for which both nonce searches are
short: the first round finds nonce 2, the second nonce 1. -/

/-- The calls `main` makes after `NewBlockchain`. -/
def demoCalls : List Call :=
  [Call.addTransaction "Alice" "Bob" (Float32.ofNat 100),
   Call.addTransaction "Bob" "Alice" (Float32.ofNat 50),
   Call.mining 3 1700000000000015891,
   Call.addTransaction "Gabriel" "Jessica" (Float32.ofNat 250),
   Call.mining 2 1700000000000015892]

/-- The fresh chain of the scenario. -/
def demoGenesis : Blockchain := NewBlockchain 1700000000000005163 "my-blockchain-address"

/-- The state before the first mining round of the scenario. -/
def demoPending : Blockchain :=
  AddTransaction (AddTransaction demoGenesis "Alice" "Bob" (Float32.ofNat 100))
    "Bob" "Alice" (Float32.ofNat 50)

/-- The state after the first mining round of the scenario. -/
def demoMined : Blockchain :=
  { transactionPool := some []
    chain :=
      [{ timestamp := 1700000000000005163, nonce := 0
         previousHash := [156, 110, 125, 110, 16, 172, 140, 211, 145, 117, 27, 124, 185, 16, 161,
           130, 8, 164, 159, 249, 182, 120, 233, 138, 252, 240, 248, 241, 252, 165, 126, 112]
         transactions := none },
       { timestamp := 1700000000000015891, nonce := 2
         previousHash := [90, 119, 97, 191, 51, 88, 168, 67, 173, 68, 90, 121, 113, 161, 133, 143,
           76, 54, 101, 104, 79, 155, 250, 112, 3, 195, 227, 65, 26, 59, 170, 65]
         transactions := some
           [{ from_ := "Alice", to_ := "Bob", amount := ⟨false, 133, 4718592⟩ },
            { from_ := "Bob", to_ := "Alice", amount := ⟨false, 132, 4718592⟩ },
            { from_ := "THE BLOCKCHAIN", to_ := "my-blockchain-address",
              amount := ⟨false, 127, 0⟩ }] }]
    blockchainAddress := "my-blockchain-address" }

/-- The state at the end of the scenario. -/
def demoFinal : Blockchain :=
  { transactionPool := some []
    chain := demoMined.chain ++
      [{ timestamp := 1700000000000015892, nonce := 1
         previousHash := [166, 47, 9, 231, 212, 211, 97, 76, 182, 207, 81, 80, 159, 169, 212, 247,
           119, 245, 186, 216, 84, 131, 201, 7, 70, 54, 219, 190, 123, 5, 4, 148]
         transactions := some
           [{ from_ := "Gabriel", to_ := "Jessica", amount := ⟨false, 134, 7995392⟩ },
            { from_ := "THE BLOCKCHAIN", to_ := "my-blockchain-address",
              amount := ⟨false, 127, 0⟩ }] }]
    blockchainAddress := "my-blockchain-address" }

/-- The state in which the first nonce search of the scenario runs: the pool
holds the two transfers and the reward transaction. -/
def demoSearch : Blockchain :=
  AddTransaction demoPending MINING_SENDER "my-blockchain-address" MINING_REWARD

/-- The genesis block of the scenario. -/
def demoGenesisBlock : Block :=
  { timestamp := 1700000000000005163, nonce := 0
    previousHash := [156, 110, 125, 110, 16, 172, 140, 211, 145, 117, 27, 124, 185, 16, 161,
      130, 8, 164, 159, 249, 182, 120, 233, 138, 252, 240, 248, 241, 252, 165, 126, 112]
    transactions := none }

/-! ## Notions the statements use -/

/-- The reward transaction a mining round adds to the pool. -/
def rewardTransaction (blockchain : Blockchain) : Transaction :=
  NewTransaction MINING_SENDER blockchain.blockchainAddress MINING_REWARD

/-- The block a mining round seals, given the nonce found and the last block. -/
def sealedBlock (blockchain : Blockchain) (now nonce : Int) (last : Block) : Block :=
  { timestamp := now, nonce := nonce, previousHash := last.Hash,
    transactions := some (elems blockchain.transactionPool ++ [rewardTransaction blockchain]) }

/-- The candidate block `ValidProof` hashes: timestamp 0 and the three arguments. -/
def guessBlock (nonce : Int) (previousHash : List Nat) (transactions : Option (List Transaction)) :
    Block :=
  { timestamp := 0, nonce := nonce, previousHash := previousHash, transactions := transactions }

/-- Each block but the first stores the hash of the block before it. -/
def Linked (chain : List Block) : Prop :=
  List.Chain' (fun a b => b.previousHash = a.Hash) chain

/-- Every transaction of the chain: chain order, then the order inside a block. -/
def allTransactions (chain : List Block) : List Transaction :=
  (chain.map fun block => elems block.transactions).flatten

/-- The terms one transaction adds to the total of an address, as the
specification words them: `+amount` if the address receives, `-amount` if it
sends, the credit first. -/
def signedTerms (blockchainAddress : String) (transaction : Transaction) : List Float32 :=
  (if blockchainAddress = transaction.to_ then [transaction.amount] else []) ++
  (if blockchainAddress = transaction.from_ then [-transaction.amount] else [])

/-- Sum of a list of float32 terms, left to right, from `+0`. -/
def sumInOrder (terms : List Float32) : Float32 :=
  terms.foldl (fun total term => total + term) (Float32.zero false)

/-- Number of `Mining` calls in a run. -/
def minedCount (calls : List Call) : Nat :=
  calls.countP fun call =>
    match call with
    | Call.mining _ _ => true
    | _ => false

/-- The exact signed amount a transaction moves to an address, in units of
`2^-149` (every finite float32 is a whole number of them). -/
def exactTerm (blockchainAddress : String) (transaction : Transaction) : Int :=
  (if blockchainAddress = transaction.to_ then transaction.amount.toInt else 0) -
  (if blockchainAddress = transaction.from_ then transaction.amount.toInt else 0)

/-- The total of an address when the amounts are added exactly, in units of
`2^-149`. -/
def exactTotal (chain : List Block) (blockchainAddress : String) : Int :=
  ((allTransactions chain).map (exactTerm blockchainAddress)).sum

/-- The addresses of the scenario of `main`. -/
def demoAddresses : Finset String :=
  {"Alice", "Bob", "Gabriel", "Jessica", "my-blockchain-address"}

/-- A JSON object with the given members in the order given: each member is its
name in quotes, a colon and its value, the members separated by commas, the
whole in braces. -/
def JSON.object (members : List (String × List Nat)) : List Nat :=
  [123] ++ JSON.commaSep (members.map fun m => [34] ++ JSON.ascii m.1 ++ [34, 58] ++ m.2) ++ [125]

/-- A JSON array of the given items. -/
def JSON.array (items : List (List Nat)) : List Nat := [91] ++ JSON.commaSep items ++ [93]

/-- The serialization of a transaction as the specification words it: the
three fields `from`, `to`, `amount`, in that order, and nothing else. -/
def canonicalTransaction (transaction : Transaction) : Option (List Nat) :=
  (JSON.float32 transaction.amount).map fun amount =>
    JSON.object [("from", JSON.string transaction.from_), ("to", JSON.string transaction.to_),
      ("amount", amount)]

/-- The serialization of a block as the specification words it: the four
fields `timestamp`, `nonce`, `previous_hash`, `transactions`, in that order;
the last is `null` for the nil slice and the array of the transactions
otherwise. -/
def canonicalBlock (block : Block) : Option (List Nat) :=
  (match block.transactions with
    | none => some (JSON.ascii "null")
    | some ts => (ts.mapM canonicalTransaction).map JSON.array).map fun transactions =>
    JSON.object [("timestamp", JSON.int block.timestamp), ("nonce", JSON.int block.nonce),
      ("previous_hash", JSON.byteArray block.previousHash), ("transactions", transactions)]

/-- The zero block with the empty, non-nil slice `[]*Transaction{}` for its
transactions. -/
def emptyListBlock : Block :=
  { timestamp := 0, nonce := 0, previousHash := List.replicate 32 0, transactions := some [] }

/-- A block that holds one transfer of `+Inf`, at the given nonce. -/
def infiniteAmountBlock (nonce : Int) : Block :=
  { timestamp := 0, nonce := nonce, previousHash := List.replicate 32 0,
    transactions := some [{ from_ := "Alice", to_ := "Bob", amount := Float32.inf false }] }

/-- The block the first mining round of the scenario seals. -/
def demoFirstBlock : Block :=
  { timestamp := 1700000000000015891, nonce := 2
    previousHash := [90, 119, 97, 191, 51, 88, 168, 67, 173, 68, 90, 121, 113, 161, 133, 143,
      76, 54, 101, 104, 79, 155, 250, 112, 3, 195, 227, 65, 26, 59, 170, 65]
    transactions := some
      [{ from_ := "Alice", to_ := "Bob", amount := ⟨false, 133, 4718592⟩ },
       { from_ := "Bob", to_ := "Alice", amount := ⟨false, 132, 4718592⟩ },
       { from_ := "THE BLOCKCHAIN", to_ := "my-blockchain-address", amount := ⟨false, 127, 0⟩ }] }

/-- The transactions a run sends to the chain, in the order of the calls:
the transaction of each `AddTransaction`, and one reward transaction to `R` at
each `Mining`; the other calls send none. -/
def ledger (R : String) : List Call → List Transaction
  | [] => []
  | Call.addTransaction from_ to_ amount :: calls =>
    { from_ := from_, to_ := to_, amount := amount } :: ledger R calls
  | Call.mining _ _ :: calls =>
    { from_ := "THE BLOCKCHAIN", to_ := R, amount := ⟨false, 127, 0⟩ } :: ledger R calls
  | _ :: calls => ledger R calls

/-- The running sum of `CalculateTotalAmount` carried on from `total` through
a list of transactions: the body of its inner loop. -/
def continueTotal (blockchainAddress : String) (total : Float32)
    (transactions : List Transaction) : Float32 :=
  transactions.foldl
    (fun totalAmount transaction =>
      let amount := transaction.amount
      let totalAmount :=
        if blockchainAddress = transaction.to_ then totalAmount + amount else totalAmount
      if blockchainAddress = transaction.from_ then totalAmount - amount else totalAmount)
    total

/-- The state before the second mining round of the scenario. -/
def demoThird : Blockchain :=
  AddTransaction demoMined "Gabriel" "Jessica" (Float32.ofNat 250)

/-! ## Theorems -/

theorem LastBlock_eq_ok {s : Blockchain} {b : Block} :
    LastBlock s = Except.ok b ↔ s.chain.getLast? = some b := by
  unfold LastBlock
  cases h : s.chain.getLast? <;> simp

theorem Mining_eq_ok {fuel : Nat} {now : Int} {s s' : Blockchain} {r : Bool}
    (h : Mining fuel now s = Except.ok (r, s')) :
    r = true ∧ ∃ nonce last,
      ProofOfWork fuel (AddTransaction s MINING_SENDER s.blockchainAddress MINING_REWARD)
        = Except.ok nonce ∧
      s.chain.getLast? = some last ∧
      s' = { transactionPool := some [], chain := s.chain ++ [sealedBlock s now nonce last],
             blockchainAddress := s.blockchainAddress } := by
  unfold Mining at h
  simp only at h
  split at h
  · cases h
  · rename_i nonce hpow
    split at h
    · cases h
    · rename_i last hlast
      rw [LastBlock_eq_ok] at hlast
      simp only [Except.ok.injEq, Prod.mk.injEq] at h
      refine ⟨h.1.symm, nonce, last, hpow, hlast, ?_⟩
      rw [← h.2]
      rfl


theorem step_mining_eq_ok {fuel : Nat} {now : Int} {s s' : Blockchain} :
    step s (Call.mining fuel now) = Except.ok s' ↔ Mining fuel now s = Except.ok (true, s') := by
  cases h : Mining fuel now s with
  | error e => simp [step, h, Except.map]
  | ok p =>
    obtain ⟨r, t⟩ := p
    have hr := (Mining_eq_ok h).1
    subst hr
    simp [step, h, Except.map]

/-- What a call that returns does to the state: it is `AddTransaction`, or a
mining round, or the state is left as it was. -/
theorem step_cases {s s' : Blockchain} {c : Call} (h : step s c = Except.ok s') :
    (∃ f t a, c = Call.addTransaction f t a ∧ s' = AddTransaction s f t a) ∨
    (∃ fuel now, c = Call.mining fuel now ∧ Mining fuel now s = Except.ok (true, s')) ∨
    s' = s := by
  cases c with
  | addTransaction f t a =>
    left
    simp only [step, Except.ok.injEq] at h
    exact ⟨f, t, a, rfl, h.symm⟩
  | mining fuel now =>
    right; left
    exact ⟨fuel, now, rfl, step_mining_eq_ok.mp h⟩
  | copyTransactionPool =>
    right; right
    simpa [step, Functor.map, Except.map] using h.symm
  | proofOfWork fuel =>
    right; right
    unfold step at h
    cases h2 : ProofOfWork fuel s <;> simp [h2, Except.map] at h
    exact h.symm
  | calculateTotalAmount a =>
    right; right
    simpa [step, Functor.map, Except.map] using h.symm
  | lastBlock =>
    right; right
    unfold step at h
    cases h2 : LastBlock s <;> simp [h2, Except.map] at h
    exact h.symm
  | validProof n p t d =>
    right; right
    unfold step at h
    cases h2 : ValidProof s n p t d <;> simp [h2, Except.map] at h
    exact h.symm

/-- A property of states that `AddTransaction` and every finished mining round
keep holds along every finished run. -/
theorem exec_invariant (P : Blockchain → Prop)
    (hadd : ∀ s f t a, P s → P (AddTransaction s f t a))
    (hmine : ∀ s fuel now s', P s → Mining fuel now s = Except.ok (true, s') → P s') :
    ∀ (calls : List Call) (s s' : Blockchain), P s → exec s calls = Except.ok s' → P s' := by
  intro calls
  induction calls with
  | nil =>
    intro s s' hs h
    simp only [exec, Except.ok.injEq] at h
    exact h ▸ hs
  | cons c calls ih =>
    intro s s' hs h
    unfold exec at h
    split at h
    · cases h
    · rename_i next hstep
      refine ih next s' ?_ h
      rcases step_cases hstep with ⟨f, t, a, -, rfl⟩ | ⟨fuel, now, -, hm⟩ | rfl
      · exact hadd s f t a hs
      · exact hmine s fuel now next hs hm
      · exact hs

theorem linked_reachable {s : Blockchain} (h : Reachable s) : Linked s.chain := by
  obtain ⟨now, addr, calls, hrun⟩ := h
  refine exec_invariant (fun s => Linked s.chain) ?_ ?_ calls _ s ?_ hrun
  · intro s f t a hs
    exact hs
  · intro s fuel now s' hs hm
    obtain ⟨-, nonce, last, -, hlast, rfl⟩ := Mining_eq_ok hm
    refine List.Chain'.append hs (List.chain'_singleton _) ?_
    intro x hx y hy
    rw [hlast] at hx
    simp only [Option.mem_def, Option.some.injEq] at hx
    simp only [List.head?_cons, Option.mem_def, Option.some.injEq] at hy
    subst hx hy
    rfl
  · simp [Linked, NewBlockchain, AddBlock]

/-- C1 (chain linkage): in every state reached from `NewBlockchain` by a finished
run of calls (`AddTransaction`, `Mining`, and the methods that assign nothing),
every block at an index `i` with `0 < i < len(chain)` stores as `previousHash`
the hash of the block at index `i - 1`, taken over that block's stored
timestamp, nonce, previousHash and transactions. -/
theorem chain_linkage (s : Blockchain) (h : Reachable s) (i : Nat) (hi : 0 < i)
    (hlt : i < s.chain.length) :
    (s.chain.get ⟨i, hlt⟩).previousHash = (s.chain.get ⟨i - 1, by omega⟩).Hash := by
  have hl := linked_reachable h
  rw [Linked, List.chain'_iff_get] at hl
  have := hl (i - 1) (by omega)
  have e : i - 1 + 1 = i := by omega
  simp only [e] at this
  exact this


/-! ### The concrete run -/

theorem demo_first_round : Mining 3 1700000000000015891 demoPending = Except.ok (true, demoMined) := by
  decide!

theorem demo_run : exec demoGenesis demoCalls = Except.ok demoFinal := by
  decide!

theorem demo_hashes :
    demoFinal.chain.map (fun block => hex block.Hash) =
      ["5a7761bf3358a843ad445a7971a1858f4c3665684f9bfa7003c3e3411a3baa41",
       "a62f09e7d4d3614cb6cf51509fa9d4f777f5bad85483c9074636dbbe7b050494",
       "72029be687103e240e0493a4e526e4f809326ee39fa9f5ea9e2adcf6bb5d7c40"] := by
  decide!


theorem demo_reachable : Reachable demoFinal :=
  ⟨1700000000000005163, "my-blockchain-address", demoCalls, demo_run⟩

/-- Witness of C1 on the scenario of `main`: the third block stores the hash of
the second. -/
theorem chain_linkage_witness :
    Reachable demoFinal ∧ 0 < 2 ∧
    (demoFinal.chain.get ⟨2, by decide⟩).previousHash =
      (demoFinal.chain.get ⟨2 - 1, by decide⟩).Hash :=
  ⟨demo_reachable, by decide, chain_linkage demoFinal demo_reachable 2 (by decide) (by decide)⟩

theorem foldl_appendTx (l acc : List Transaction) :
    l.foldl (fun transactions transaction =>
      appendTx transactions (NewTransaction transaction.from_ transaction.to_ transaction.amount))
      (some acc) = some (acc ++ l) := by
  induction l generalizing acc with
  | nil => simp
  | cons t l ih =>
    rw [List.foldl_cons]
    have e : appendTx (some acc) (NewTransaction t.from_ t.to_ t.amount) = some (acc ++ [t]) := rfl
    rw [e, ih]
    simp

theorem CopyTransactionPool_eq (s : Blockchain) :
    CopyTransactionPool s = some (elems s.transactionPool) := by
  unfold CopyTransactionPool
  rw [foldl_appendTx]
  simp

theorem beBytes_length (n x : Nat) : (SHA256.beBytes n x).length = n := by
  induction n with
  | zero => rfl
  | succ n ih => simp [SHA256.beBytes, ih]

theorem beBytes_lt (n x : Nat) : ∀ b ∈ SHA256.beBytes n x, b < 256 := by
  induction n with
  | zero => simp [SHA256.beBytes]
  | succ n ih =>
    intro b hb
    simp only [SHA256.beBytes, List.mem_cons] at hb
    rcases hb with rfl | hb
    · exact Nat.mod_lt _ (by decide)
    · exact ih b hb

theorem Sum256_length (msg : List Nat) : (SHA256.Sum256 msg).length = 32 := by
  simp [SHA256.Sum256, SHA256.digest, beBytes_length]

theorem Sum256_lt (msg : List Nat) : ∀ b ∈ SHA256.Sum256 msg, b < 256 := by
  intro b hb
  simp only [SHA256.Sum256, SHA256.digest, List.mem_append] at hb
  rcases hb with ((((((hb | hb) | hb) | hb) | hb) | hb) | hb) | hb <;> exact beBytes_lt _ _ b hb

theorem hex_length (bs : List Nat) : (hex bs).length = 2 * bs.length := by
  unfold hex
  simp only [String.length]
  induction bs with
  | nil => rfl
  | cons b bs ih =>
    simp only [List.map_cons, List.flatten_cons, List.length_append, List.length_cons,
      List.length_nil, ih]
    omega

theorem Hash_hex_length (b : Block) : (hex b.Hash).length = 64 := by
  rw [hex_length, Block.Hash, Sum256_length]

theorem hexDigit_mem (n : Nat) (h : n < 16) :
    Char.ofNat (JSON.hexDigit n) ∈ "0123456789abcdef".data := by
  interval_cases n <;> decide

theorem hex_chars (bs : List Nat) (h : ∀ b ∈ bs, b < 256) :
    ∀ c ∈ (hex bs).data, c ∈ "0123456789abcdef".data := by
  intro c hc
  simp only [hex, List.mem_flatten, List.mem_map] at hc
  obtain ⟨l, ⟨b, hb, rfl⟩, hc⟩ := hc
  have hb256 := h b hb
  simp only [List.mem_cons, List.mem_singleton, List.not_mem_nil, or_false] at hc
  rcases hc with rfl | rfl
  · exact hexDigit_mem _ (by omega)
  · exact hexDigit_mem _ (by omega)

theorem ValidProof_eq (s : Blockchain) (nonce : Int) (previousHash : List Nat)
    (transactions : Option (List Transaction)) (d : Int) (h0 : 0 ≤ d) (h64 : d ≤ 64) :
    ValidProof s nonce previousHash transactions d =
      Except.ok (decide (String.mk ((hex (guessBlock nonce previousHash transactions).Hash).data.take
        d.toNat) = zeroString d.toNat)) := by
  unfold ValidProof
  have hlen := Hash_hex_length (guessBlock nonce previousHash transactions)
  have h1 : ¬ d < 0 := by omega
  have h2 : ¬ (hex (guessBlock nonce previousHash transactions).Hash).length < d.toNat := by
    rw [hlen]; omega
  simp only [h1, if_false]
  unfold guessBlock at h2 ⊢
  simp only [h2, if_false]

theorem ValidProof_difficulty (s : Blockchain) (nonce : Int) (previousHash : List Nat)
    (transactions : Option (List Transaction)) :
    ValidProof s nonce previousHash transactions MINING_DIFFICULTY = Except.ok true ∨
    ValidProof s nonce previousHash transactions MINING_DIFFICULTY = Except.ok false := by
  rw [ValidProof_eq s nonce previousHash transactions MINING_DIFFICULTY (by decide) (by decide)]
  cases decide (String.mk ((hex (guessBlock nonce previousHash transactions).Hash).data.take
        MINING_DIFFICULTY.toNat) = zeroString MINING_DIFFICULTY.toNat) <;> simp

theorem wrapInt_succ (k : Nat) (h : (k : Int) + 1 < 9223372036854775808) :
    wrapInt ((k : Int) + 1) = ((k + 1 : Nat) : Int) := by
  unfold wrapInt
  push_cast
  omega

theorem loop_ok_valid (s : Blockchain) (previousHash : List Nat)
    (transactions : Option (List Transaction)) :
    ∀ (fuel : Nat) (start nonce : Int),
      ProofOfWork.loop s previousHash transactions fuel start = Except.ok nonce →
      ValidProof s nonce previousHash transactions MINING_DIFFICULTY = Except.ok true := by
  intro fuel
  induction fuel with
  | zero => intro start nonce h; simp [ProofOfWork.loop] at h
  | succ fuel ih =>
    intro start nonce h
    unfold ProofOfWork.loop at h
    split at h
    · cases h
    · rename_i hv
      cases h
      exact hv
    · exact ih _ _ h

theorem loop_finds (s : Blockchain) (previousHash : List Nat)
    (transactions : Option (List Transaction)) (n : Nat) (hn : (n : Int) < 9223372036854775808)
    (hv : ValidProof s n previousHash transactions MINING_DIFFICULTY = Except.ok true) :
    ∀ (fuel start : Nat), start ≤ n →
      (∀ k : Nat, start ≤ k → k < n →
        ValidProof s k previousHash transactions MINING_DIFFICULTY = Except.ok false) →
      n - start < fuel →
      ProofOfWork.loop s previousHash transactions fuel start = Except.ok (n : Int) := by
  intro fuel
  induction fuel with
  | zero => intro start _ _ h; omega
  | succ fuel ih =>
    intro start hle hfalse hfuel
    unfold ProofOfWork.loop
    rcases Nat.eq_or_lt_of_le hle with rfl | hlt
    · rw [hv]
    · rw [hfalse start (le_refl _) hlt]
      simp only
      rw [wrapInt_succ start (by omega)]
      exact ih (start + 1) (by omega) (fun k hk hkn => hfalse k (by omega) hkn) (by omega)

theorem loop_short (s : Blockchain) (previousHash : List Nat)
    (transactions : Option (List Transaction)) (n : Nat) (hn : (n : Int) < 9223372036854775808) :
    ∀ (fuel start : Nat), start ≤ n →
      (∀ k : Nat, start ≤ k → k < n →
        ValidProof s k previousHash transactions MINING_DIFFICULTY = Except.ok false) →
      fuel ≤ n - start →
      ProofOfWork.loop s previousHash transactions fuel start = Except.error Fault.fuel := by
  intro fuel
  induction fuel with
  | zero => intro start _ _ _; rfl
  | succ fuel ih =>
    intro start hle hfalse hfuel
    unfold ProofOfWork.loop
    have hlt : start < n := by omega
    rw [hfalse start (le_refl _) hlt]
    simp only
    rw [wrapInt_succ start (by omega)]
    exact ih (start + 1) (by omega) (fun k hk hkn => hfalse k (by omega) hkn) (by omega)

/-- C4 (first satisfying nonce): on a state whose chain is not empty, if some
nonce `n` with `0 ≤ n` (an `int`, so below `2^63`) passes `ValidProof` against
the hash of the last block and the copy of the pool at `MINING_DIFFICULTY`, then
`ProofOfWork` returns, and returns the least such nonce `m`: every budget of
more than `m` tests yields `m`, `m + 1` tests are needed (the scan starts at 0
and goes up by 1), `ValidProof` holds at `m` and is false at every smaller
non-negative nonce. -/
theorem proofOfWork_first_nonce (s : Blockchain) (last : Block)
    (hlast : LastBlock s = Except.ok last) (n : Nat) (hn : (n : Int) < 9223372036854775808)
    (hv : ValidProof s n last.Hash (CopyTransactionPool s) MINING_DIFFICULTY = Except.ok true) :
    ∃ m : Nat, m ≤ n ∧
      (∀ fuel : Nat, m < fuel → ProofOfWork fuel s = Except.ok (m : Int)) ∧
      (∀ fuel : Nat, fuel ≤ m → ProofOfWork fuel s = Except.error Fault.fuel) ∧
      ValidProof s m last.Hash (CopyTransactionPool s) MINING_DIFFICULTY = Except.ok true ∧
      ∀ k : Nat, k < m →
        ValidProof s k last.Hash (CopyTransactionPool s) MINING_DIFFICULTY = Except.ok false := by
  have hex : ∃ k : Nat,
      ValidProof s k last.Hash (CopyTransactionPool s) MINING_DIFFICULTY = Except.ok true :=
    ⟨n, hv⟩
  have hm := Nat.find_spec hex
  have hmin : ∀ k : Nat, k < Nat.find hex →
      ValidProof s k last.Hash (CopyTransactionPool s) MINING_DIFFICULTY = Except.ok false := by
    intro k hk
    rcases ValidProof_difficulty s k last.Hash (CopyTransactionPool s) with h | h
    · exact absurd h (Nat.find_min hex hk)
    · exact h
  have hmn : Nat.find hex ≤ n := Nat.find_min' hex hv
  have hm63 : ((Nat.find hex : Nat) : Int) < 9223372036854775808 := by omega
  refine ⟨Nat.find hex, hmn, ?_, ?_, hm, hmin⟩
  · intro fuel hfuel
    unfold ProofOfWork
    rw [hlast]
    simp only
    have := loop_finds s last.Hash (CopyTransactionPool s) (Nat.find hex) hm63 hm fuel 0
      (Nat.zero_le _) (fun k _ hk => hmin k hk) (by omega)
    simpa using this
  · intro fuel hfuel
    unfold ProofOfWork
    rw [hlast]
    simp only
    have := loop_short s last.Hash (CopyTransactionPool s) (Nat.find hex) hm63 fuel 0
      (Nat.zero_le _) (fun k _ hk => hmin k hk) (by omega)
    simpa using this
theorem Mining_candidate {fuel : Nat} {now : Int} {s s' : Blockchain} {r : Bool}
    (h : Mining fuel now s = Except.ok (r, s')) :
    ∃ nonce last, s.chain.getLast? = some last ∧
      s'.chain = s.chain ++ [sealedBlock s now nonce last] ∧
      ValidProof s nonce last.Hash (sealedBlock s now nonce last).transactions MINING_DIFFICULTY
        = Except.ok true := by
  obtain ⟨-, nonce, last, hpow, hlast, rfl⟩ := Mining_eq_ok h
  refine ⟨nonce, last, hlast, rfl, ?_⟩
  unfold ProofOfWork at hpow
  have hl : LastBlock (AddTransaction s MINING_SENDER s.blockchainAddress MINING_REWARD)
      = Except.ok last := LastBlock_eq_ok.mpr hlast
  rw [hl] at hpow
  simp only at hpow
  have hv := loop_ok_valid _ _ _ _ _ _ hpow
  rw [CopyTransactionPool_eq] at hv
  exact hv

/-- C2, as the code has it: a block `b` appended by `Mining` carries the clock
reading taken when it is built, and the hash that starts with
`MINING_DIFFICULTY` (= 3) characters `'0'` is the hash of the candidate block
with timestamp 0 and the nonce, previousHash and transactions of `b`. -/
theorem mining_candidate_meets_difficulty (fuel : Nat) (now : Int) (s s' : Blockchain) (r : Bool)
    (h : Mining fuel now s = Except.ok (r, s')) :
    ∃ b, s'.chain.getLast? = some b ∧ b.timestamp = now ∧
      String.mk ((hex (guessBlock b.nonce b.previousHash b.transactions).Hash).data.take 3)
        = zeroString 3 := by
  obtain ⟨nonce, last, -, hchain, hv⟩ := Mining_candidate h
  refine ⟨sealedBlock s now nonce last, by simp [hchain], rfl, ?_⟩
  rw [ValidProof_eq _ _ _ _ MINING_DIFFICULTY (by decide) (by decide)] at hv
  simp only [Except.ok.injEq, decide_eq_true_eq] at hv
  exact hv

/-- C3 (pool isolation): when `Mining` returns from a state (reachable or not)
with pending pool `P` and reward address `R`, the pool is empty afterwards and
the last block of the chain holds `P`, order and fields kept, followed by the
one reward transaction from `"THE BLOCKCHAIN"` to `R` of amount 1.0. -/
theorem mining_pool_isolation (fuel : Nat) (now : Int) (s s' : Blockchain) (r : Bool)
    (h : Mining fuel now s = Except.ok (r, s')) :
    s'.transactionPool = some [] ∧
    ∃ b, s'.chain.getLast? = some b ∧
      b.transactions = some (elems s.transactionPool ++
        [{ from_ := "THE BLOCKCHAIN", to_ := s.blockchainAddress, amount := ⟨false, 127, 0⟩ }]) := by
  obtain ⟨-, nonce, last, -, -, rfl⟩ := Mining_eq_ok h
  exact ⟨rfl, sealedBlock s now nonce last, by simp, rfl⟩

/-- C5: for every difficulty from 0 to 64, `ValidProof` returns, and returns true
exactly when the first `difficulty` characters of the hexadecimal form of the
hash of the candidate block (timestamp 0, the given nonce, previous hash and
transactions) are the string of `difficulty` characters `'0'`; that form has 64
characters, all from `0123456789abcdef`; the result is the same on every
receiver, and the function returns nothing but the boolean. -/
theorem validProof_iff_zeros (s : Blockchain) (nonce : Int) (previousHash : List Nat)
    (transactions : Option (List Transaction)) (difficulty : Int)
    (h0 : 0 ≤ difficulty) (h64 : difficulty ≤ 64) :
    (hex (guessBlock nonce previousHash transactions).Hash).length = 64 ∧
    (∀ c ∈ (hex (guessBlock nonce previousHash transactions).Hash).data,
      c ∈ "0123456789abcdef".data) ∧
    (∃ r, ValidProof s nonce previousHash transactions difficulty = Except.ok r ∧
      (r = true ↔
        (hex (guessBlock nonce previousHash transactions).Hash).data.take difficulty.toNat
          = List.replicate difficulty.toNat '0')) ∧
    ∀ s2 : Blockchain, ValidProof s2 nonce previousHash transactions difficulty
      = ValidProof s nonce previousHash transactions difficulty := by
  refine ⟨Hash_hex_length _, hex_chars _ (Sum256_lt _), ⟨_, ValidProof_eq s _ _ _ _ h0 h64, ?_⟩, ?_⟩
  · simp only [zeroString, decide_eq_true_eq]
    exact ⟨fun h => congrArg String.data h, fun h => congrArg String.mk h⟩
  · intro s2
    rw [ValidProof_eq s _ _ _ _ h0 h64, ValidProof_eq s2 _ _ _ _ h0 h64]

theorem demo_pending_reachable : Reachable demoPending :=
  ⟨1700000000000005163, "my-blockchain-address",
    [Call.addTransaction "Alice" "Bob" (Float32.ofNat 100),
     Call.addTransaction "Bob" "Alice" (Float32.ofNat 50)], rfl⟩

/-- Counterexample to C2 as stated: the first mining round of the scenario of
`main` (clock reading 1700000000000015891 for the new block) returns, and the
hash of the block it appended, taken over the stored timestamp, nonce,
previousHash and transactions, starts with `a62`, not with `000`. -/
theorem sealed_hash_counterexample :
    Reachable demoPending ∧
    Mining 3 1700000000000015891 demoPending = Except.ok (true, demoMined) ∧
    ∃ b, demoMined.chain.getLast? = some b ∧
      hex b.Hash = "a62f09e7d4d3614cb6cf51509fa9d4f777f5bad85483c9074636dbbe7b050494" ∧
      String.mk ((hex b.Hash).data.take 3) ≠ zeroString 3 :=
  ⟨demo_pending_reachable, demo_first_round, _, rfl, by decide!, by decide!⟩

/-- Witness of the amended C2 on the first mining round of the scenario. -/
theorem mining_candidate_meets_difficulty_witness :
    Mining 3 1700000000000015891 demoPending = Except.ok (true, demoMined) ∧
    ∃ b, demoMined.chain.getLast? = some b ∧ b.timestamp = 1700000000000015891 ∧
      String.mk ((hex (guessBlock b.nonce b.previousHash b.transactions).Hash).data.take 3)
        = zeroString 3 :=
  ⟨demo_first_round,
    mining_candidate_meets_difficulty 3 1700000000000015891 demoPending demoMined true
      demo_first_round⟩

/-- Witness of C3 on the first mining round of the scenario: the sealed block
holds the two transfers, then the reward. -/
theorem mining_pool_isolation_witness :
    Mining 3 1700000000000015891 demoPending = Except.ok (true, demoMined) ∧
    demoMined.transactionPool = some [] ∧
    ∃ b, demoMined.chain.getLast? = some b ∧
      b.transactions = some (elems demoPending.transactionPool ++
        [{ from_ := "THE BLOCKCHAIN", to_ := demoPending.blockchainAddress,
           amount := ⟨false, 127, 0⟩ }]) :=
  ⟨demo_first_round,
    mining_pool_isolation 3 1700000000000015891 demoPending demoMined true demo_first_round⟩

theorem demo_search_last : LastBlock demoSearch = Except.ok demoGenesisBlock := by
  decide!

theorem demo_search_valid :
    ValidProof demoSearch 2 demoGenesisBlock.Hash (CopyTransactionPool demoSearch)
      MINING_DIFFICULTY = Except.ok true := by
  decide!

theorem demo_search_result : ProofOfWork 3 demoSearch = Except.ok 2 := by
  decide!

/-- Witness of C4 on the first nonce search of the scenario, where nonce 2
passes (the search returns 2: nonces 0 and 1 fail). -/
theorem proofOfWork_first_nonce_witness :
    ∃ m : Nat, m ≤ 2 ∧
      (∀ fuel : Nat, m < fuel → ProofOfWork fuel demoSearch = Except.ok (m : Int)) ∧
      (∀ fuel : Nat, fuel ≤ m → ProofOfWork fuel demoSearch = Except.error Fault.fuel) ∧
      ValidProof demoSearch m demoGenesisBlock.Hash (CopyTransactionPool demoSearch)
        MINING_DIFFICULTY = Except.ok true ∧
      ∀ k : Nat, k < m →
        ValidProof demoSearch k demoGenesisBlock.Hash (CopyTransactionPool demoSearch)
          MINING_DIFFICULTY = Except.ok false :=
  proofOfWork_first_nonce demoSearch demoGenesisBlock demo_search_last 2 (by decide)
    demo_search_valid

/-- Witness of C5 on the candidate block of the first search of the scenario at
nonce 2 and difficulty 3. -/
theorem validProof_iff_zeros_witness :
    (0 : Int) ≤ 3 ∧ (3 : Int) ≤ 64 ∧
    (hex (guessBlock 2 demoGenesisBlock.Hash demoSearch.transactionPool).Hash).length = 64 ∧
    (∀ c ∈ (hex (guessBlock 2 demoGenesisBlock.Hash demoSearch.transactionPool).Hash).data,
      c ∈ "0123456789abcdef".data) ∧
    (∃ r, ValidProof demoGenesis 2 demoGenesisBlock.Hash demoSearch.transactionPool 3
        = Except.ok r ∧
      (r = true ↔
        (hex (guessBlock 2 demoGenesisBlock.Hash demoSearch.transactionPool).Hash).data.take
          (3 : Int).toNat = List.replicate (3 : Int).toNat '0')) ∧
    ∀ s2 : Blockchain, ValidProof s2 2 demoGenesisBlock.Hash demoSearch.transactionPool 3
      = ValidProof demoGenesis 2 demoGenesisBlock.Hash demoSearch.transactionPool 3 :=
  ⟨by decide, by decide,
    validProof_iff_zeros demoGenesis 2 demoGenesisBlock.Hash demoSearch.transactionPool 3
      (by decide) (by decide)⟩

theorem demo_candidate_hash :
    hex (guessBlock 2 demoGenesisBlock.Hash demoSearch.transactionPool).Hash
      = "000b21183cf4b987551bc3757f2a8ac206c9fdd3a3ea16c7306f06e6bbd9a166" := by
  decide!

theorem sub_eq_add_neg (x y : Float32) : x - y = x + -y := rfl

theorem foldl_signedTerms (a : String) (ts : List Transaction) (total : Float32) :
    ts.foldl
      (fun totalAmount transaction =>
        let amount := transaction.amount
        let totalAmount := if a = transaction.to_ then totalAmount + amount else totalAmount
        if a = transaction.from_ then totalAmount - amount else totalAmount)
      total
    = ((ts.map (signedTerms a)).flatten).foldl (fun total term => total + term) total := by
  induction ts generalizing total with
  | nil => rfl
  | cons t ts ih =>
    simp only [List.foldl_cons, List.map_cons, List.flatten_cons, List.foldl_append]
    rw [ih]
    congr 1
    unfold signedTerms
    by_cases h1 : a = t.to_
    · by_cases h2 : a = t.from_
      · simp only [if_pos h1, if_pos h2, sub_eq_add_neg, List.cons_append, List.nil_append,
          List.foldl_cons, List.foldl_nil]
      · simp only [if_pos h1, if_neg h2, List.cons_append, List.nil_append,
          List.foldl_cons, List.foldl_nil]
    · by_cases h2 : a = t.from_
      · simp only [if_neg h1, if_pos h2, sub_eq_add_neg, List.nil_append,
          List.foldl_cons, List.foldl_nil]
      · simp only [if_neg h1, if_neg h2, List.nil_append, List.foldl_nil]

theorem CalculateTotalAmount_eq_sum (s : Blockchain) (a : String) :
    CalculateTotalAmount s a
      = sumInOrder (((allTransactions s.chain).map (signedTerms a)).flatten) := by
  unfold CalculateTotalAmount sumInOrder allTransactions
  generalize Float32.zero false = z
  induction s.chain generalizing z with
  | nil => rfl
  | cons b bs ih =>
    simp only [List.foldl_cons, List.map_cons, List.flatten_cons, List.map_append,
      List.flatten_append, List.foldl_append]
    rw [ih, foldl_signedTerms]

/-- C6: `CalculateTotalAmount(a)` is the sum, taken left to right from zero over
every transaction of every block (chain order, then in-block order, the genesis
block included), of the terms `+t.amount` when `t.to = a` and `-t.amount` when
`t.from = a`; a transaction with `t.from = t.to = a` gives both terms, and an
address that appears in no transaction has total 0. -/
theorem calculateTotalAmount_signed_sum (s : Blockchain) (a : String) :
    CalculateTotalAmount s a
      = sumInOrder (((allTransactions s.chain).map (signedTerms a)).flatten) ∧
    (∀ t : Transaction, t.from_ = a → t.to_ = a → signedTerms a t = [t.amount, -t.amount]) ∧
    ((∀ t ∈ allTransactions s.chain, t.from_ ≠ a ∧ t.to_ ≠ a) →
      CalculateTotalAmount s a = Float32.zero false) := by
  refine ⟨CalculateTotalAmount_eq_sum s a, ?_, ?_⟩
  · intro t hf ht
    simp only [signedTerms, if_pos hf.symm, if_pos ht.symm, List.cons_append, List.nil_append]
  · intro h
    rw [CalculateTotalAmount_eq_sum]
    have : ((allTransactions s.chain).map (signedTerms a)).flatten = [] := by
      rw [List.flatten_eq_nil_iff]
      intro l hl
      obtain ⟨t, ht, rfl⟩ := List.mem_map.mp hl
      have := h t ht
      simp only [signedTerms, if_neg (Ne.symm this.1), if_neg (Ne.symm this.2), List.append_nil]
    rw [this]
    rfl

theorem elems_some (l : List Transaction) : elems (some l) = l := rfl

theorem sum_exactTerm (A : Finset String) (t : Transaction) :
    ∑ a in A, exactTerm a t
      = (if t.to_ ∈ A then t.amount.toInt else 0) - (if t.from_ ∈ A then t.amount.toInt else 0) := by
  unfold exactTerm
  rw [Finset.sum_sub_distrib, Finset.sum_ite_eq', Finset.sum_ite_eq']

theorem sum_exactTotal (A : Finset String) (ts : List Transaction) :
    ∑ a in A, (ts.map (exactTerm a)).sum = (ts.map fun t => ∑ a in A, exactTerm a t).sum := by
  induction ts with
  | nil => simp
  | cons t ts ih => simp [Finset.sum_add_distrib, ih]

theorem allTransactions_append (chain : List Block) (b : Block) :
    allTransactions (chain ++ [b]) = allTransactions chain ++ elems b.transactions := by
  simp [allTransactions]

theorem sum_pool_zero (A : Finset String) (ts : List Transaction)
    (h : ∀ t ∈ ts, t.from_ ∈ A ∧ t.to_ ∈ A) :
    (ts.map fun t => ∑ a in A, exactTerm a t).sum = 0 := by
  induction ts with
  | nil => rfl
  | cons t ts ih =>
    have ht := h t (List.mem_cons_self _ _)
    simp only [List.map_cons, List.sum_cons, sum_exactTerm, if_pos ht.1, if_pos ht.2, sub_self,
      zero_add]
    have := ih fun u hu => h u (List.mem_cons_of_mem _ hu)
    simpa [sum_exactTerm] using this

/-- Along a run whose submitted transactions stay inside `A`, the exact totals
of the chain over `A` grow by one reward at each mining round. -/
theorem exec_conservation (A : Finset String) (R : String) (hR : R ∈ A)
    (hS : MINING_SENDER ∉ A) :
    ∀ (calls : List Call) (s0 s : Blockchain),
      s0.blockchainAddress = R →
      (∀ t ∈ elems s0.transactionPool, t.from_ ∈ A ∧ t.to_ ∈ A) →
      (∀ f t amt, Call.addTransaction f t amt ∈ calls → f ∈ A ∧ t ∈ A) →
      exec s0 calls = Except.ok s →
      ((allTransactions s.chain).map fun t => ∑ a in A, exactTerm a t).sum
        = ((allTransactions s0.chain).map fun t => ∑ a in A, exactTerm a t).sum
          + MINING_REWARD.toInt * minedCount calls := by
  intro calls
  induction calls with
  | nil =>
    intro s0 s _ _ _ h
    simp only [exec, Except.ok.injEq] at h
    subst h
    simp [minedCount]
  | cons c calls ih =>
    intro s0 s hR0 hpool hsub h
    unfold exec at h
    split at h
    · cases h
    · rename_i next hstep
      have hsub2 : ∀ f t amt, Call.addTransaction f t amt ∈ calls → f ∈ A ∧ t ∈ A :=
        fun f t amt hm => hsub f t amt (List.mem_cons_of_mem _ hm)
      rcases step_cases hstep with ⟨f, t, amt, rfl, rfl⟩ | ⟨fuel, now, rfl, hm⟩ | rfl
      · have hft := hsub f t amt (List.mem_cons_self _ _)
        have hpool2 : ∀ u ∈ elems (AddTransaction s0 f t amt).transactionPool,
            u.from_ ∈ A ∧ u.to_ ∈ A := by
          intro u hu
          have hu2 : u ∈ elems s0.transactionPool ++ [NewTransaction f t amt] := hu
          rw [List.mem_append, List.mem_singleton] at hu2
          rcases hu2 with hu2 | rfl
          · exact hpool u hu2
          · exact hft
        rw [ih (AddTransaction s0 f t amt) s hR0 hpool2 hsub2 h]
        simp [minedCount, AddTransaction]
      · obtain ⟨-, nonce, last, -, -, rfl⟩ := Mining_eq_ok hm
        have hpool2 : ∀ u ∈ elems (some ([] : List Transaction)), u.from_ ∈ A ∧ u.to_ ∈ A := by
          intro u hu
          cases hu
        rw [ih { transactionPool := some [], chain := s0.chain ++ [sealedBlock s0 now nonce last],
                 blockchainAddress := s0.blockchainAddress } s hR0 hpool2 hsub2 h]
        simp only [allTransactions_append, sealedBlock, elems_some, List.map_append,
          List.sum_append, List.map_cons, List.map_nil, List.sum_cons, List.sum_nil, add_zero]
        rw [sum_pool_zero A _ hpool, sum_exactTerm]
        have e1 : (rewardTransaction s0).to_ = R := hR0
        have e2 : (rewardTransaction s0).from_ = MINING_SENDER := rfl
        have e3 : (rewardTransaction s0).amount = MINING_REWARD := rfl
        rw [e1, e2, e3, if_pos hR, if_neg hS]
        simp only [minedCount, List.countP_cons_of_pos, Nat.cast_add, Nat.cast_one]
        ring
      · rw [ih _ s hR0 hpool hsub2 h]
        cases c with
        | addTransaction f t amt =>
          simp [minedCount]
        | mining fuel now =>
          exfalso
          obtain ⟨-, nonce, last, -, -, hm⟩ := Mining_eq_ok (step_mining_eq_ok.mp hstep)
          have := congrArg (fun b => b.chain.length) hm
          simp at this
        | _ => simp [minedCount]

/-- C7 (balance conservation), with amounts added exactly: take a run from
`NewBlockchain(R)` in which every submitted transaction has its sender and its
receiver in a finite address set `A`, with `R` in `A` and the reserved sender
`"THE BLOCKCHAIN"` outside it.  If the float32 totals `CalculateTotalAmount(a)`
of the addresses of `A` are the exact sums (no rounding took place), then their
sum over `A` is `MINING_REWARD` times the number of `Mining` calls of the run;
values are counted in units of `2^-149`. -/
theorem balance_conservation (A : Finset String) (R : String) (now : Int) (calls : List Call)
    (s : Blockchain) (hR : R ∈ A) (hS : MINING_SENDER ∉ A)
    (hsub : ∀ f t amt, Call.addTransaction f t amt ∈ calls → f ∈ A ∧ t ∈ A)
    (hrun : exec (NewBlockchain now R) calls = Except.ok s)
    (hexact : ∀ a ∈ A, (CalculateTotalAmount s a).toInt = exactTotal s.chain a) :
    ∑ a in A, (CalculateTotalAmount s a).toInt = MINING_REWARD.toInt * minedCount calls := by
  rw [Finset.sum_congr rfl hexact]
  unfold exactTotal
  rw [sum_exactTotal, exec_conservation A R hR hS calls _ s rfl (by simp [NewBlockchain, AddBlock, elems])
    hsub hrun]
  simp [NewBlockchain, AddBlock, allTransactions, elems, NewBlock]

theorem demo_submitted (f t : String) (amt : Float32)
    (h : Call.addTransaction f t amt ∈ demoCalls) : f ∈ demoAddresses ∧ t ∈ demoAddresses := by
  simp only [demoCalls, List.mem_cons, Call.addTransaction.injEq, List.mem_singleton,
    List.not_mem_nil, or_false, false_or, reduceCtorEq] at h
  rcases h with ⟨rfl, rfl, -⟩ | ⟨rfl, rfl, -⟩ | ⟨rfl, rfl, -⟩ <;> decide

theorem demo_exact (a : String) (ha : a ∈ demoAddresses) :
    (CalculateTotalAmount demoFinal a).toInt = exactTotal demoFinal.chain a := by
  simp only [demoAddresses, Finset.mem_insert, Finset.mem_singleton] at ha
  rcases ha with rfl | rfl | rfl | rfl | rfl <;> decide!

/-- Witness of C7 on the scenario of `main`: five addresses, two mining rounds. -/
theorem balance_conservation_witness :
    ∑ a in demoAddresses, (CalculateTotalAmount demoFinal a).toInt
      = MINING_REWARD.toInt * minedCount demoCalls :=
  balance_conservation demoAddresses "my-blockchain-address" 1700000000000005163 demoCalls
    demoFinal (by decide) (by decide) demo_submitted demo_run demo_exact

theorem exec_addTransaction_cons (s : Blockchain) (f t : String) (amt : Float32)
    (calls : List Call) :
    exec s (Call.addTransaction f t amt :: calls) = exec (AddTransaction s f t amt) calls := rfl

theorem exec_mining_cons {s s' : Blockchain} {fuel : Nat} {now : Int} {calls : List Call}
    (h : exec s (Call.mining fuel now :: calls) = Except.ok s') :
    ∃ nonce last, s.chain.getLast? = some last ∧
      exec { transactionPool := some [], chain := s.chain ++ [sealedBlock s now nonce last],
             blockchainAddress := s.blockchainAddress } calls = Except.ok s' := by
  unfold exec at h
  split at h
  · cases h
  · rename_i next hstep
    obtain ⟨-, nonce, last, -, hlast, rfl⟩ := Mining_eq_ok (step_mining_eq_ok.mp hstep)
    exact ⟨nonce, last, hlast, h⟩

theorem main_scenario_state (g : Blockchain) (fuel1 : Nat) (now1 : Int) (fuel2 : Nat)
    (now2 : Int) (s : Blockchain) (a1 a2 a3 : Float32)
    (hrun : exec g
      [Call.addTransaction "Alice" "Bob" a1,
       Call.addTransaction "Bob" "Alice" a2,
       Call.mining fuel1 now1,
       Call.addTransaction "Gabriel" "Jessica" a3,
       Call.mining fuel2 now2] = Except.ok s) :
    ∃ b1 b2 : Block, s.chain = g.chain ++ [b1, b2] ∧
      b1.transactions = some (elems g.transactionPool ++
        [⟨"Alice", "Bob", a1⟩, ⟨"Bob", "Alice", a2⟩,
         ⟨MINING_SENDER, g.blockchainAddress, MINING_REWARD⟩]) ∧
      b2.transactions = some
        [⟨"Gabriel", "Jessica", a3⟩, ⟨MINING_SENDER, g.blockchainAddress, MINING_REWARD⟩] := by
  rw [exec_addTransaction_cons, exec_addTransaction_cons] at hrun
  obtain ⟨nonce1, last1, -, h2⟩ := exec_mining_cons hrun
  rw [exec_addTransaction_cons] at h2
  obtain ⟨nonce2, last2, -, h4⟩ := exec_mining_cons h2
  simp only [exec, Except.ok.injEq] at h4
  subst h4
  refine ⟨sealedBlock (AddTransaction (AddTransaction g "Alice" "Bob" a1) "Bob" "Alice" a2)
      now1 nonce1 last1,
    sealedBlock (AddTransaction
      { transactionPool := some [],
        chain := g.chain ++ [sealedBlock
          (AddTransaction (AddTransaction g "Alice" "Bob" a1) "Bob" "Alice" a2) now1 nonce1 last1],
        blockchainAddress := g.blockchainAddress } "Gabriel" "Jessica" a3) now2 nonce2 last2,
    ?_, ?_, ?_⟩
  · simp only [AddTransaction, List.append_assoc, List.singleton_append]
  · simp [sealedBlock, AddTransaction, appendTx, elems, rewardTransaction, NewTransaction]
  · simp [sealedBlock, AddTransaction, appendTx, elems, rewardTransaction, NewTransaction]
theorem NewBlockchain_eq (now : Int) (R : String) :
    NewBlockchain now R =
      { transactionPool := some []
        chain := [{ timestamp := now, nonce := 0, previousHash := zeroBlock.Hash
                    transactions := none }]
        blockchainAddress := R } := rfl

theorem signedTerms_neither (a : String) (t : Transaction) (h1 : a ≠ t.to_) (h2 : a ≠ t.from_) :
    signedTerms a t = [] := by
  simp only [signedTerms, if_neg h1, if_neg h2, List.append_nil]

theorem signedTerms_to (a : String) (t : Transaction) (h1 : a = t.to_) (h2 : a ≠ t.from_) :
    signedTerms a t = [t.amount] := by
  simp only [signedTerms, if_pos h1, if_neg h2, List.append_nil]

theorem signedTerms_from (a : String) (t : Transaction) (h1 : a ≠ t.to_) (h2 : a = t.from_) :
    signedTerms a t = [-t.amount] := by
  simp only [signedTerms, if_neg h1, if_pos h2, List.nil_append]

theorem float_two : Float32.zero false + MINING_REWARD + MINING_REWARD = Float32.ofNat 2 := by
  decide!

theorem float_minus_250 : Float32.zero false + -Float32.ofNat 250 = -Float32.ofNat 250 := by
  decide!

theorem float_plus_250 : Float32.zero false + Float32.ofNat 250 = Float32.ofNat 250 := by
  decide!

/-- C8 (the scenario of `main`): from `NewBlockchain(R)`, after
`AddTransaction("Alice","Bob",100)`, `AddTransaction("Bob","Alice",50)`, `Mining`,
`AddTransaction("Gabriel","Jessica",250)`, `Mining`, both rounds returning and
`R` distinct from the four names and from the reserved sender, the totals are
2.0 for `R`, -250.0 for Gabriel and 250.0 for Jessica, and the chain has three
blocks. -/
theorem main_scenario (now : Int) (R : String) (fuel1 : Nat) (now1 : Int) (fuel2 : Nat)
    (now2 : Int) (s : Blockchain)
    (hA : R ≠ "Alice") (hB : R ≠ "Bob") (hG : R ≠ "Gabriel") (hJ : R ≠ "Jessica")
    (hS : R ≠ "THE BLOCKCHAIN")
    (hrun : exec (NewBlockchain now R)
      [Call.addTransaction "Alice" "Bob" (Float32.ofNat 100),
       Call.addTransaction "Bob" "Alice" (Float32.ofNat 50),
       Call.mining fuel1 now1,
       Call.addTransaction "Gabriel" "Jessica" (Float32.ofNat 250),
       Call.mining fuel2 now2] = Except.ok s) :
    CalculateTotalAmount s R = Float32.ofNat 2 ∧
    CalculateTotalAmount s "Gabriel" = -Float32.ofNat 250 ∧
    CalculateTotalAmount s "Jessica" = Float32.ofNat 250 ∧
    s.chain.length = 3 := by
  obtain ⟨b1, b2, hchain, hb1, hb2⟩ := main_scenario_state _ _ _ _ _ _ _ _ _ hrun
  rw [NewBlockchain_eq] at hchain hb1 hb2
  have hall : allTransactions s.chain =
      [⟨"Alice", "Bob", Float32.ofNat 100⟩, ⟨"Bob", "Alice", Float32.ofNat 50⟩,
       ⟨"THE BLOCKCHAIN", R, MINING_REWARD⟩,
       ⟨"Gabriel", "Jessica", Float32.ofNat 250⟩, ⟨"THE BLOCKCHAIN", R, MINING_REWARD⟩] := by
    rw [hchain]
    simp only [allTransactions, List.cons_append, List.nil_append, List.map_cons, List.map_nil,
      hb1, hb2, elems_some, List.flatten_cons, List.flatten_nil, List.append_nil]
    rfl
  have gA : "Gabriel" ≠ "Alice" := by decide
  have gB : "Gabriel" ≠ "Bob" := by decide
  have gJ : "Gabriel" ≠ "Jessica" := by decide
  have gS : "Gabriel" ≠ "THE BLOCKCHAIN" := by decide
  have jA : "Jessica" ≠ "Alice" := by decide
  have jB : "Jessica" ≠ "Bob" := by decide
  have jG : "Jessica" ≠ "Gabriel" := by decide
  have jS : "Jessica" ≠ "THE BLOCKCHAIN" := by decide
  refine ⟨?_, ?_, ?_, ?_⟩
  · rw [CalculateTotalAmount_eq_sum, hall]
    have t1 : signedTerms R ⟨"Alice", "Bob", Float32.ofNat 100⟩ = [] :=
      signedTerms_neither _ _ hB hA
    have t2 : signedTerms R ⟨"Bob", "Alice", Float32.ofNat 50⟩ = [] :=
      signedTerms_neither _ _ hA hB
    have t3 : signedTerms R ⟨"THE BLOCKCHAIN", R, MINING_REWARD⟩ = [MINING_REWARD] :=
      signedTerms_to _ _ rfl hS
    have t4 : signedTerms R ⟨"Gabriel", "Jessica", Float32.ofNat 250⟩ = [] :=
      signedTerms_neither _ _ hJ hG
    simp only [List.map_cons, List.map_nil, t1, t2, t3, t4, List.flatten_cons, List.flatten_nil,
      List.nil_append, List.append_nil, List.singleton_append, sumInOrder, List.foldl_cons,
      List.foldl_nil]
    exact float_two
  · rw [CalculateTotalAmount_eq_sum, hall]
    have t1 : signedTerms "Gabriel" ⟨"Alice", "Bob", Float32.ofNat 100⟩ = [] :=
      signedTerms_neither _ _ gB gA
    have t2 : signedTerms "Gabriel" ⟨"Bob", "Alice", Float32.ofNat 50⟩ = [] :=
      signedTerms_neither _ _ gA gB
    have t3 : signedTerms "Gabriel" ⟨"THE BLOCKCHAIN", R, MINING_REWARD⟩ = [] :=
      signedTerms_neither _ _ (Ne.symm hG) gS
    have t4 := signedTerms_from "Gabriel" ⟨"Gabriel", "Jessica", Float32.ofNat 250⟩ gJ rfl
    simp only [List.map_cons, List.map_nil, t1, t2, t3, t4, List.flatten_cons, List.flatten_nil,
      List.nil_append, List.append_nil, List.singleton_append, sumInOrder, List.foldl_cons,
      List.foldl_nil]
    exact float_minus_250
  · rw [CalculateTotalAmount_eq_sum, hall]
    have t1 : signedTerms "Jessica" ⟨"Alice", "Bob", Float32.ofNat 100⟩ = [] :=
      signedTerms_neither _ _ jB jA
    have t2 : signedTerms "Jessica" ⟨"Bob", "Alice", Float32.ofNat 50⟩ = [] :=
      signedTerms_neither _ _ jA jB
    have t3 : signedTerms "Jessica" ⟨"THE BLOCKCHAIN", R, MINING_REWARD⟩ = [] :=
      signedTerms_neither _ _ (Ne.symm hJ) jS
    have t4 := signedTerms_to "Jessica" ⟨"Gabriel", "Jessica", Float32.ofNat 250⟩ rfl jG
    simp only [List.map_cons, List.map_nil, t1, t2, t3, t4, List.flatten_cons, List.flatten_nil,
      List.nil_append, List.append_nil, List.singleton_append, sumInOrder, List.foldl_cons,
      List.foldl_nil]
    exact float_plus_250
  · rw [hchain]
    rfl

/-- Witness of C8: the scenario of `main` with reward address
`"my-blockchain-address"` and clock readings for which both searches are short. -/
theorem main_scenario_witness :
    CalculateTotalAmount demoFinal "my-blockchain-address" = Float32.ofNat 2 ∧
    CalculateTotalAmount demoFinal "Gabriel" = -Float32.ofNat 250 ∧
    CalculateTotalAmount demoFinal "Jessica" = Float32.ofNat 250 ∧
    demoFinal.chain.length = 3 :=
  main_scenario 1700000000000005163 "my-blockchain-address" 3 1700000000000015891 2
    1700000000000015892 demoFinal (by decide) (by decide) (by decide) (by decide) (by decide)
    demo_run

theorem float_values :
    Float32.ofNat 2 = ⟨false, 128, 0⟩ ∧ -Float32.ofNat 250 = ⟨true, 134, 7995392⟩ ∧
    Float32.ofNat 250 = ⟨false, 134, 7995392⟩ ∧ Float32.ofNat 100 = ⟨false, 133, 4718592⟩ ∧
    Float32.ofNat 50 = ⟨false, 132, 4718592⟩ := by
  decide!

/-- C9: the chain is never empty after initialization.  `NewBlockchain` returns
a chain of length 1; every call that returns (`AddTransaction`,
`CopyTransactionPool`, `ProofOfWork`, `Mining`, `CalculateTotalAmount`,
`LastBlock`, `ValidProof`) keeps `len(chain) >= 1`; a mining round appends one
block, which `LastBlock` then returns; and on every reachable state `LastBlock`
does not fail and returns the last element of the chain. -/
theorem chain_never_empty :
    (∀ (now : Int) (addr : String), (NewBlockchain now addr).chain.length = 1) ∧
    (∀ (s s' : Blockchain) (c : Call), 1 ≤ s.chain.length → step s c = Except.ok s' →
      1 ≤ s'.chain.length) ∧
    (∀ (s s' : Blockchain) (fuel : Nat) (now : Int) (r : Bool),
      Mining fuel now s = Except.ok (r, s') →
      ∃ b, s'.chain = s.chain ++ [b] ∧ LastBlock s' = Except.ok b) ∧
    (∀ s : Blockchain, Reachable s →
      1 ≤ s.chain.length ∧ ∃ b, LastBlock s = Except.ok b ∧ s.chain.getLast? = some b) := by
  have hstep : ∀ (s s' : Blockchain) (c : Call), 1 ≤ s.chain.length →
      step s c = Except.ok s' → 1 ≤ s'.chain.length := by
    intro s s' c hs h
    rcases step_cases h with ⟨f, t, a, -, rfl⟩ | ⟨fuel, now, -, hm⟩ | rfl
    · exact hs
    · obtain ⟨-, nonce, last, -, -, rfl⟩ := Mining_eq_ok hm
      simp
    · exact hs
  refine ⟨fun now addr => by rw [NewBlockchain_eq]; rfl, hstep, ?_, ?_⟩
  · intro s s' fuel now r h
    obtain ⟨-, nonce, last, -, -, rfl⟩ := Mining_eq_ok h
    exact ⟨sealedBlock s now nonce last, rfl, LastBlock_eq_ok.mpr (by simp)⟩
  · intro s hs
    obtain ⟨now, addr, calls, hrun⟩ := hs
    have hlen : 1 ≤ s.chain.length := by
      refine exec_invariant (fun s => 1 ≤ s.chain.length) (fun s f t a h => h) ?_ calls _ s ?_ hrun
      · intro s fuel now s' hs hm
        exact hstep s s' (Call.mining fuel now) hs (step_mining_eq_ok.mpr hm)
      · rw [NewBlockchain_eq]
        exact le_refl 1
    refine ⟨hlen, ?_⟩
    cases hl : s.chain.getLast? with
    | none =>
      rw [List.getLast?_eq_none_iff] at hl
      rw [hl] at hlen
      simp at hlen
    | some b => exact ⟨b, LastBlock_eq_ok.mpr hl, rfl⟩

/-- Instance of C9 on the scenario of `main`: `LastBlock` returns on the final
state. -/
theorem chain_never_empty_witness :
    Reachable demoFinal ∧ 1 ≤ demoFinal.chain.length ∧
    ∃ b, LastBlock demoFinal = Except.ok b ∧ demoFinal.chain.getLast? = some b :=
  ⟨demo_reachable, chain_never_empty.2.2.2 demoFinal demo_reachable⟩

theorem zero_block_hash :
    hex zeroBlock.Hash = "9c6e7d6e10ac8cd391751b7cb910a18208a49ff9b678e98afcf0f8f1fca57e70" := by
  decide!

/-- C10 (genesis): for every address `addr` (and clock reading), `NewBlockchain`
yields a state with reward address `addr`, an empty pending pool, and a chain of
exactly one block, whose nonce is 0, whose transaction list (the nil slice) has
no transactions, whose timestamp is the clock reading, and whose previousHash
is the hash of the all-zero block: timestamp 0, nonce 0, previousHash 32 zero
bytes, no transactions. -/
theorem genesis_state (now : Int) (addr : String) :
    (NewBlockchain now addr).blockchainAddress = addr ∧
    (NewBlockchain now addr).transactionPool = some [] ∧
    ∃ g : Block, (NewBlockchain now addr).chain = [g] ∧ g.nonce = 0 ∧
      g.transactions = none ∧ elems g.transactions = [] ∧ g.timestamp = now ∧
      g.previousHash = Block.Hash
        { timestamp := 0, nonce := 0, previousHash := List.replicate 32 0, transactions := none } := by
  rw [NewBlockchain_eq]
  refine ⟨rfl, rfl, _, rfl, rfl, rfl, rfl, rfl, ?_⟩
  unfold zeroBlock
  rfl

/-- C11: `AddTransaction(from, to, amount)` never fails and validates nothing.
For every state and every `from`, `to` and `amount` (zero, negative, not a
number, `from = to` included) the call returns, the new pending pool is the old
pool with the one transaction `(from, to, amount)` appended at the end, and the
chain and the reward address are unchanged. -/
theorem addTransaction_appends (s : Blockchain) (from_ to_ : String) (amount : Float32) :
    step s (Call.addTransaction from_ to_ amount)
      = Except.ok (AddTransaction s from_ to_ amount) ∧
    (AddTransaction s from_ to_ amount).transactionPool
      = some (elems s.transactionPool ++ [{ from_ := from_, to_ := to_, amount := amount }]) ∧
    (AddTransaction s from_ to_ amount).chain = s.chain ∧
    (AddTransaction s from_ to_ amount).blockchainAddress = s.blockchainAddress :=
  ⟨rfl, rfl, rfl, rfl⟩

/-- Instance of C11 on the final state of the scenario of `main`: a transfer
of `-0` from Alice to Alice is accepted like any other. -/
theorem addTransaction_appends_instance :
    (AddTransaction demoFinal "Alice" "Alice" (Float32.zero true)).transactionPool
      = some [{ from_ := "Alice", to_ := "Alice", amount := Float32.zero true }] ∧
    (AddTransaction demoFinal "Alice" "Alice" (Float32.zero true)).chain = demoFinal.chain :=
  ⟨(addTransaction_appends demoFinal "Alice" "Alice" (Float32.zero true)).2.1,
   (addTransaction_appends demoFinal "Alice" "Alice" (Float32.zero true)).2.2.1⟩

/-- C12 (append-only sealing): when `Mining` returns from a state (reachable or
not) it returns true, the new chain is the old chain with exactly one block
appended (the length grows by 1 and the block at every earlier index is the
block that was there, with its timestamp, nonce, previousHash and
transactions), and the reward address is unchanged. -/
theorem mining_appends_one_block (fuel : Nat) (now : Int) (s s' : Blockchain) (r : Bool)
    (h : Mining fuel now s = Except.ok (r, s')) :
    r = true ∧
    (∃ b, s'.chain = s.chain ++ [b]) ∧
    s'.chain.length = s.chain.length + 1 ∧
    (∀ i, i < s.chain.length → s'.chain.get? i = s.chain.get? i) ∧
    s'.blockchainAddress = s.blockchainAddress := by
  obtain ⟨hr, nonce, last, -, -, rfl⟩ := Mining_eq_ok h
  refine ⟨hr, ⟨_, rfl⟩, by simp, ?_, rfl⟩
  intro i hi
  simp only [List.get?_eq_getElem?]
  exact List.getElem?_append_left hi

/-- Witness of C12 on the first mining round of the scenario of `main`. -/
theorem mining_appends_one_block_witness :
    Mining 3 1700000000000015891 demoPending = Except.ok (true, demoMined) ∧
    true = true ∧
    (∃ b, demoMined.chain = demoPending.chain ++ [b]) ∧
    demoMined.chain.length = demoPending.chain.length + 1 ∧
    (∀ i, i < demoPending.chain.length → demoMined.chain.get? i = demoPending.chain.get? i) ∧
    demoMined.blockchainAddress = demoPending.blockchainAddress :=
  ⟨demo_first_round,
    mining_appends_one_block 3 1700000000000015891 demoPending demoMined true demo_first_round⟩

/-- C13: for every state, `CopyTransactionPool` returns a list of the length of
the pending pool whose element at each index has the `from`, `to` and `amount`
of the pool's element at that index (the copy is never the nil slice), and the
call leaves the state, so the pool, the chain and the reward address, as it
was. -/
theorem copyTransactionPool_same_content (s : Blockchain) :
    CopyTransactionPool s = some (elems s.transactionPool) ∧
    (elems (CopyTransactionPool s)).length = (elems s.transactionPool).length ∧
    (∀ (i : Nat) (h1 : i < (elems (CopyTransactionPool s)).length)
        (h2 : i < (elems s.transactionPool).length),
      ((elems (CopyTransactionPool s)).get ⟨i, h1⟩).from_
        = ((elems s.transactionPool).get ⟨i, h2⟩).from_ ∧
      ((elems (CopyTransactionPool s)).get ⟨i, h1⟩).to_
        = ((elems s.transactionPool).get ⟨i, h2⟩).to_ ∧
      ((elems (CopyTransactionPool s)).get ⟨i, h1⟩).amount
        = ((elems s.transactionPool).get ⟨i, h2⟩).amount) ∧
    step s Call.copyTransactionPool = Except.ok s := by
  have h := CopyTransactionPool_eq s
  refine ⟨h, by rw [h, elems_some], ?_, rfl⟩
  intro i h1 h2
  have key : ∀ (l : List Transaction), l = elems s.transactionPool → ∀ h3 : i < l.length,
      l.get ⟨i, h3⟩ = (elems s.transactionPool).get ⟨i, h2⟩ := by
    intro l hl
    subst hl
    intro _
    rfl
  rw [key _ (by rw [h, elems_some]) h1]
  exact ⟨rfl, rfl, rfl⟩

theorem Transaction_MarshalJSON_eq (t : Transaction) :
    t.MarshalJSON = canonicalTransaction t := by
  unfold Transaction.MarshalJSON canonicalTransaction
  have a1 : JSON.ascii "\x7b\"from\":" = 123 :: 34 :: (JSON.ascii "from" ++ [34, 58]) := by decide
  have a2 : JSON.ascii ",\"to\":" = 44 :: 34 :: (JSON.ascii "to" ++ [34, 58]) := by decide
  have a3 : JSON.ascii ",\"amount\":" = 44 :: 34 :: (JSON.ascii "amount" ++ [34, 58]) := by decide
  have a4 : JSON.ascii "\x7d" = [125] := by decide
  congr 1
  funext amount
  simp only [a1, a2, a3, a4, JSON.object, JSON.commaSep, List.map_cons, List.map_nil,
    List.append_assoc, List.cons_append, List.nil_append, List.singleton_append]

theorem Block_MarshalJSON_eq (b : Block) : b.MarshalJSON = canonicalBlock b := by
  unfold Block.MarshalJSON canonicalBlock
  have a1 : JSON.ascii "\x7b\"timestamp\":" = 123 :: 34 :: (JSON.ascii "timestamp" ++ [34, 58]) := by
    decide
  have a2 : JSON.ascii ",\"nonce\":" = 44 :: 34 :: (JSON.ascii "nonce" ++ [34, 58]) := by decide
  have a3 : JSON.ascii ",\"previous_hash\":"
      = 44 :: 34 :: (JSON.ascii "previous_hash" ++ [34, 58]) := by decide
  have a4 : JSON.ascii ",\"transactions\":"
      = 44 :: 34 :: (JSON.ascii "transactions" ++ [34, 58]) := by decide
  have a5 : JSON.ascii "\x7d" = [125] := by decide
  have hm : marshalTransactions b.transactions
      = (match b.transactions with
        | none => some (JSON.ascii "null")
        | some ts => (ts.mapM canonicalTransaction).map JSON.array) := by
    cases b.transactions with
    | none => rfl
    | some ts =>
      have hf : Transaction.MarshalJSON = canonicalTransaction :=
        funext Transaction_MarshalJSON_eq
      simp only [marshalTransactions, hf]
      rfl
  rw [hm]
  congr 1
  funext transactions
  simp only [a1, a2, a3, a4, a5, JSON.object, JSON.commaSep, List.map_cons, List.map_nil,
    List.append_assoc, List.cons_append, List.nil_append, List.singleton_append]

theorem float32_finite (x : Float32) (h : x.exp.val ≠ 255) : ∃ j, JSON.float32 x = some j := by
  unfold JSON.float32
  simp only [if_neg h]
  split
  · exact ⟨_, rfl⟩
  · exact ⟨_, rfl⟩

theorem mapM_canonical_finite (ts : List Transaction)
    (h : ∀ t ∈ ts, t.amount.exp.val ≠ 255) : ∃ js, ts.mapM canonicalTransaction = some js := by
  induction ts with
  | nil => exact ⟨[], rfl⟩
  | cons t ts ih =>
    obtain ⟨js, hjs⟩ := ih fun u hu => h u (List.mem_cons_of_mem _ hu)
    obtain ⟨j, hj⟩ := float32_finite t.amount (h t (List.mem_cons_self _ _))
    have hc : ∃ c, canonicalTransaction t = some c := by
      simp only [canonicalTransaction, hj, Option.map_some']
      exact ⟨_, rfl⟩
    obtain ⟨c, hc⟩ := hc
    refine ⟨c :: js, ?_⟩
    rw [List.mapM_cons, hjs, hc]
    rfl

theorem Transaction_ext_fields (t u : Transaction) (h1 : t.from_ = u.from_) (h2 : t.to_ = u.to_)
    (h3 : t.amount = u.amount) : t = u := by
  cases t
  cases u
  simp only at h1 h2 h3
  subst h1 h2 h3
  rfl

/-- C14, as the code has it: for every block whose amounts `json.Marshal`
accepts (none is NaN or infinite), `Hash(block)` is SHA-256 of the JSON object
with exactly the four members `timestamp`, `nonce`, `previous_hash`,
`transactions`, in that order, where `transactions` is `null` for the nil slice
and otherwise the array of the transactions, each an object with exactly the
three members `from`, `to`, `amount`, in that order.  Two blocks with equal
timestamp, nonce and previousHash whose transaction lists are both nil or both
not nil, of the same length and field-wise equal, have equal hashes. -/
theorem hash_canonical_serialization (b : Block)
    (hfin : ∀ t ∈ elems b.transactions, t.amount.exp.val ≠ 255) :
    (∃ j, canonicalBlock b = some j ∧ b.Hash = SHA256.Sum256 j) ∧
    ∀ b2 : Block, b2.timestamp = b.timestamp → b2.nonce = b.nonce →
      b2.previousHash = b.previousHash →
      b2.transactions.isSome = b.transactions.isSome →
      (elems b2.transactions).length = (elems b.transactions).length →
      (∀ (i : Nat) (h2 : i < (elems b2.transactions).length)
          (h1 : i < (elems b.transactions).length),
        ((elems b2.transactions).get ⟨i, h2⟩).from_ = ((elems b.transactions).get ⟨i, h1⟩).from_ ∧
        ((elems b2.transactions).get ⟨i, h2⟩).to_ = ((elems b.transactions).get ⟨i, h1⟩).to_ ∧
        ((elems b2.transactions).get ⟨i, h2⟩).amount
          = ((elems b.transactions).get ⟨i, h1⟩).amount) →
      b2.Hash = b.Hash := by
  constructor
  · have hj : ∃ j, canonicalBlock b = some j := by
      unfold canonicalBlock
      cases hb : b.transactions with
      | none => exact ⟨_, rfl⟩
      | some ts =>
        rw [hb] at hfin
        obtain ⟨js, hjs⟩ := mapM_canonical_finite ts hfin
        simp only [hjs, Option.map_some']
        exact ⟨_, rfl⟩
    obtain ⟨j, hj⟩ := hj
    refine ⟨j, hj, ?_⟩
    rw [Block.Hash, Block_MarshalJSON_eq, hj]
    rfl
  · intro b2 hts hn hp hsome hlen hfields
    have hel : elems b2.transactions = elems b.transactions := by
      apply List.ext_get hlen
      intro i h2 h1
      have := hfields i h2 h1
      exact Transaction_ext_fields _ _ this.1 this.2.1 this.2.2
    have htx : b2.transactions = b.transactions := by
      cases h2 : b2.transactions with
      | none =>
        cases h1 : b.transactions with
        | none => rfl
        | some l => rw [h1, h2] at hsome; cases hsome
      | some l2 =>
        cases h1 : b.transactions with
        | none => rw [h1, h2] at hsome; cases hsome
        | some l =>
          rw [h1, h2] at hel
          exact congrArg some hel
    have : b2 = b := by
      cases b
      cases b2
      simp only at hts hn hp htx
      subst hts hn hp htx
      rfl
    rw [this]

/-- Counterexample to C14 as stated.  The zero block with the nil slice and the
zero block with the empty slice have equal timestamp, nonce and previousHash
and the same (empty) list of transactions, yet their hashes differ: the JSON
reads `null` for the one and `[]` for the other.  And a block that holds an
infinite amount is refused by `json.Marshal`; its hash is SHA-256 of the empty
input (`e3b0c442...`) whatever its nonce, so no field is encoded. -/
theorem hash_serialization_counterexample :
    zeroBlock.timestamp = emptyListBlock.timestamp ∧
    zeroBlock.nonce = emptyListBlock.nonce ∧
    zeroBlock.previousHash = emptyListBlock.previousHash ∧
    elems zeroBlock.transactions = elems emptyListBlock.transactions ∧
    hex zeroBlock.Hash = "9c6e7d6e10ac8cd391751b7cb910a18208a49ff9b678e98afcf0f8f1fca57e70" ∧
    hex emptyListBlock.Hash
      = "8c64dd70e8778391d2d821acc06294daae2da1591486c25107ffcb08f1a39769" ∧
    zeroBlock.Hash ≠ emptyListBlock.Hash ∧
    (infiniteAmountBlock 0).MarshalJSON = none ∧
    hex (infiniteAmountBlock 0).Hash
      = "e3b0c44298fc1c149afbf4c8996fb92427ae41e4649b934ca495991b7852b855" ∧
    hex (infiniteAmountBlock 1).Hash
      = "e3b0c44298fc1c149afbf4c8996fb92427ae41e4649b934ca495991b7852b855" := by
  decide!

theorem demo_first_block_json :
    demoFirstBlock.MarshalJSON.map (fun j => String.mk (j.map Char.ofNat)) = some
      "\x7b\"timestamp\":1700000000000015891,\"nonce\":2,\"previous_hash\":[90,119,97,191,51,88,168,67,173,68,90,121,113,161,133,143,76,54,101,104,79,155,250,112,3,195,227,65,26,59,170,65],\"transactions\":[\x7b\"from\":\"Alice\",\"to\":\"Bob\",\"amount\":100\x7d,\x7b\"from\":\"Bob\",\"to\":\"Alice\",\"amount\":50\x7d,\x7b\"from\":\"THE BLOCKCHAIN\",\"to\":\"my-blockchain-address\",\"amount\":1\x7d]\x7d" := by
  decide!

theorem demo_first_block_finite :
    ∀ t ∈ elems demoFirstBlock.transactions, t.amount.exp.val ≠ 255 := by
  decide!

/-- Witness of the amended C14 on the block the first mining round of the
scenario of `main` seals. -/
theorem hash_canonical_serialization_witness :
    ∃ j, canonicalBlock demoFirstBlock = some j ∧ demoFirstBlock.Hash = SHA256.Sum256 j :=
  (hash_canonical_serialization demoFirstBlock demo_first_block_finite).1

/-- C15 (idempotent querying): for every state and address `a`,
`CalculateTotalAmount(a)` returns and leaves the state (chain, pending pool,
reward address) as it was, so a second call right after the first, or after
any calls that change nothing, returns the same value; and the result depends
on the chain only, not on the pending pool nor on the reward address. -/
theorem calculateTotalAmount_idempotent (s : Blockchain) (a : String) :
    step s (Call.calculateTotalAmount a) = Except.ok s ∧
    (∀ s' : Blockchain, exec s [Call.calculateTotalAmount a] = Except.ok s' →
      s' = s ∧ CalculateTotalAmount s' a = CalculateTotalAmount s a) ∧
    (∀ (pool : Option (List Transaction)) (R : String),
      CalculateTotalAmount { transactionPool := pool, chain := s.chain, blockchainAddress := R } a
        = CalculateTotalAmount s a) := by
  refine ⟨rfl, ?_, fun pool R => rfl⟩
  intro s' h
  have h2 : s = s' := by
    have h3 : (Except.ok s : Except Fault Blockchain) = Except.ok s' := h
    exact Except.ok.inj h3
  subst h2
  exact ⟨rfl, rfl⟩

/-- C16: within one mining round the previous hash the nonce search uses and
the previous hash stored in the sealed block are the same value, the hash of
the last block of the chain (`AddTransaction` and `ProofOfWork` leave the chain
as it is), and the sealed transactions are the snapshot the search ran over;
hence the block `b` that `Mining` appends satisfies
`ValidProof(b.nonce, b.previousHash, b.transactions, MINING_DIFFICULTY) = true`:
the candidate with timestamp 0 meets the difficulty. -/
theorem mining_sealed_block_valid (fuel : Nat) (now : Int) (s s' : Blockchain) (r : Bool)
    (h : Mining fuel now s = Except.ok (r, s')) :
    ∃ b last : Block,
      s'.chain = s.chain ++ [b] ∧
      (AddTransaction s MINING_SENDER s.blockchainAddress MINING_REWARD).chain = s.chain ∧
      LastBlock (AddTransaction s MINING_SENDER s.blockchainAddress MINING_REWARD)
        = Except.ok last ∧
      b.previousHash = last.Hash ∧
      b.transactions
        = CopyTransactionPool (AddTransaction s MINING_SENDER s.blockchainAddress MINING_REWARD) ∧
      ProofOfWork fuel (AddTransaction s MINING_SENDER s.blockchainAddress MINING_REWARD)
        = Except.ok b.nonce ∧
      ValidProof s' b.nonce b.previousHash b.transactions MINING_DIFFICULTY = Except.ok true := by
  obtain ⟨nonce, last, hlast, hchain, hv⟩ := Mining_candidate h
  obtain ⟨-, nonce2, last2, hpow, hlast2, hs'⟩ := Mining_eq_ok h
  have e1 : last2 = last := by
    rw [hlast] at hlast2
    exact (Option.some.inj hlast2).symm
  subst e1
  have e2 : nonce2 = nonce := by
    rw [hs'] at hchain
    have := List.append_cancel_left hchain
    simp only [List.cons.injEq, and_true] at this
    exact congrArg Block.nonce this
  subst e2
  refine ⟨sealedBlock s now nonce2 last2, last2, hchain, rfl, LastBlock_eq_ok.mpr hlast, rfl,
    ?_, hpow, ?_⟩
  · rw [CopyTransactionPool_eq]
    rfl
  · rw [ValidProof_eq _ _ _ _ MINING_DIFFICULTY (by decide) (by decide)] at hv ⊢
    exact hv

/-- Witness of C16 on the first mining round of the scenario of `main`. -/
theorem mining_sealed_block_valid_witness :
    ∃ b last : Block,
      demoMined.chain = demoPending.chain ++ [b] ∧
      (AddTransaction demoPending MINING_SENDER demoPending.blockchainAddress MINING_REWARD).chain
        = demoPending.chain ∧
      LastBlock (AddTransaction demoPending MINING_SENDER demoPending.blockchainAddress
        MINING_REWARD) = Except.ok last ∧
      b.previousHash = last.Hash ∧
      b.transactions = CopyTransactionPool
        (AddTransaction demoPending MINING_SENDER demoPending.blockchainAddress MINING_REWARD) ∧
      ProofOfWork 3 (AddTransaction demoPending MINING_SENDER demoPending.blockchainAddress
        MINING_REWARD) = Except.ok b.nonce ∧
      ValidProof demoMined b.nonce b.previousHash b.transactions MINING_DIFFICULTY
        = Except.ok true :=
  mining_sealed_block_valid 3 1700000000000015891 demoPending demoMined true demo_first_round

theorem step_query_eq {s s' : Blockchain} {c : Call} (h : step s c = Except.ok s')
    (h1 : ∀ f t a, c ≠ Call.addTransaction f t a) (h2 : ∀ fuel now, c ≠ Call.mining fuel now) :
    s' = s := by
  rcases step_cases h with ⟨f, t, a, hc, -⟩ | ⟨fuel, now, hc, -⟩ | h3
  · exact absurd hc (h1 f t a)
  · exact absurd hc (h2 fuel now)
  · exact h3

/-- Along a run, the transactions of the chain followed by the pool grow by
the ledger of the calls. -/
theorem exec_ledger :
    ∀ (calls : List Call) (s0 s : Blockchain), exec s0 calls = Except.ok s →
      s.blockchainAddress = s0.blockchainAddress ∧
      allTransactions s.chain ++ elems s.transactionPool
        = allTransactions s0.chain ++ elems s0.transactionPool
          ++ ledger s0.blockchainAddress calls := by
  intro calls
  induction calls with
  | nil =>
    intro s0 s h
    simp only [exec, Except.ok.injEq] at h
    subst h
    simp [ledger]
  | cons c calls ih =>
    intro s0 s h
    unfold exec at h
    split at h
    · cases h
    · rename_i next hstep
      obtain ⟨hR, hl⟩ := ih next s h
      cases c with
      | addTransaction f t a =>
        simp only [step, Except.ok.injEq] at hstep
        subst hstep
        refine ⟨hR, ?_⟩
        rw [hl]
        simp [ledger, AddTransaction, appendTx, elems_some, NewTransaction]
      | mining fuel now =>
        obtain ⟨-, nonce, last, -, -, rfl⟩ := Mining_eq_ok (step_mining_eq_ok.mp hstep)
        refine ⟨hR, ?_⟩
        rw [hl]
        simp [ledger, allTransactions_append, sealedBlock, elems_some, rewardTransaction,
          NewTransaction, MINING_SENDER, MINING_REWARD]
      | copyTransactionPool =>
        have := step_query_eq hstep (fun _ _ _ => Call.noConfusion) (fun _ _ => Call.noConfusion)
        subst this
        exact ⟨hR, by rw [hl]; simp [ledger]⟩
      | proofOfWork fuel =>
        have := step_query_eq hstep (fun _ _ _ => Call.noConfusion) (fun _ _ => Call.noConfusion)
        subst this
        exact ⟨hR, by rw [hl]; simp [ledger]⟩
      | calculateTotalAmount a =>
        have := step_query_eq hstep (fun _ _ _ => Call.noConfusion) (fun _ _ => Call.noConfusion)
        subst this
        exact ⟨hR, by rw [hl]; simp [ledger]⟩
      | lastBlock =>
        have := step_query_eq hstep (fun _ _ _ => Call.noConfusion) (fun _ _ => Call.noConfusion)
        subst this
        exact ⟨hR, by rw [hl]; simp [ledger]⟩
      | validProof n p t d =>
        have := step_query_eq hstep (fun _ _ _ => Call.noConfusion) (fun _ _ => Call.noConfusion)
        subst this
        exact ⟨hR, by rw [hl]; simp [ledger]⟩

/-- C17 (no transaction lost or duplicated): after every finished run of calls
from `NewBlockchain(R)`, the transaction lists of all blocks in chain order,
followed by the pending pool, are the submitted transactions in submission
order with one reward transaction (`"THE BLOCKCHAIN"`, `R`, 1.0) at the place
of each `Mining` call; when the pool is empty (as right after a mining round)
the blocks alone hold that sequence, each submitted transaction once. -/
theorem no_transaction_lost (now : Int) (R : String) (calls : List Call) (s : Blockchain)
    (h : exec (NewBlockchain now R) calls = Except.ok s) :
    allTransactions s.chain ++ elems s.transactionPool = ledger R calls ∧
    (elems s.transactionPool = [] → allTransactions s.chain = ledger R calls) := by
  have hl := (exec_ledger calls _ s h).2
  rw [NewBlockchain_eq] at hl
  have e : allTransactions s.chain ++ elems s.transactionPool = ledger R calls := by
    rw [hl]
    simp [allTransactions, elems]
  refine ⟨e, fun hp => ?_⟩
  rw [hp, List.append_nil] at e
  exact e

/-- Witness of C17 on the scenario of `main`: the blocks hold the two
transfers, a reward, the third transfer, a reward. -/
theorem no_transaction_lost_witness :
    allTransactions demoFinal.chain ++ elems demoFinal.transactionPool
      = ledger "my-blockchain-address" demoCalls ∧
    (elems demoFinal.transactionPool = [] →
      allTransactions demoFinal.chain = ledger "my-blockchain-address" demoCalls) :=
  no_transaction_lost 1700000000000005163 "my-blockchain-address" demoCalls demoFinal demo_run

theorem take_replicate_of_le {l : List Char} {m n : Nat} (h : l.take m = List.replicate m '0')
    (hle : n ≤ m) : l.take n = List.replicate n '0' := by
  have e : l.take n = (l.take m).take n := by
    rw [List.take_take, Nat.min_eq_left hle]
  rw [e, h, List.take_replicate, Nat.min_eq_left hle]

theorem ValidProof_ok_true_iff (s : Blockchain) (nonce : Int) (previousHash : List Nat)
    (transactions : Option (List Transaction)) (d : Int) (h0 : 0 ≤ d) (h64 : d ≤ 64) :
    ValidProof s nonce previousHash transactions d = Except.ok true ↔
      (hex (guessBlock nonce previousHash transactions).Hash).data.take d.toNat
        = List.replicate d.toNat '0' := by
  rw [ValidProof_eq s _ _ _ _ h0 h64]
  simp only [Except.ok.injEq, decide_eq_true_eq, zeroString]
  exact ⟨fun h => congrArg String.data h, fun h => congrArg String.mk h⟩

/-- C18: `ValidProof` is monotone in the difficulty.  For all difficulties with
`0 <= d' <= d <= 64`, if the proof is valid at `d` it is valid at `d'`; at
difficulty 0 it is valid for every input; and a hash with more leading
characters `'0'` than the difficulty asks for is accepted. -/
theorem validProof_monotone (s : Blockchain) (nonce : Int) (previousHash : List Nat)
    (transactions : Option (List Transaction)) :
    (∀ d d' : Int, 0 ≤ d' → d' ≤ d → d ≤ 64 →
      ValidProof s nonce previousHash transactions d = Except.ok true →
      ValidProof s nonce previousHash transactions d' = Except.ok true) ∧
    ValidProof s nonce previousHash transactions 0 = Except.ok true ∧
    (∀ (d : Int) (k : Nat), 0 ≤ d → d ≤ 64 →
      (hex (guessBlock nonce previousHash transactions).Hash).data.take (d.toNat + k)
        = List.replicate (d.toNat + k) '0' →
      ValidProof s nonce previousHash transactions d = Except.ok true) := by
  refine ⟨?_, ?_, ?_⟩
  · intro d d' h0 hle h64 hv
    rw [ValidProof_ok_true_iff s _ _ _ d (by omega) h64] at hv
    rw [ValidProof_ok_true_iff s _ _ _ d' h0 (by omega)]
    exact take_replicate_of_le hv (by omega)
  · rw [ValidProof_ok_true_iff s _ _ _ 0 (le_refl 0) (by decide)]
    rfl
  · intro d k h0 h64 hz
    rw [ValidProof_ok_true_iff s _ _ _ d h0 h64]
    exact take_replicate_of_le hz (Nat.le_add_right _ _)

/-- Witness of C18 on the candidate block of the first search of the scenario of
`main` at nonce 2, whose hash starts with `000`: valid at difficulty 3, hence
at difficulty 2. -/
theorem validProof_monotone_witness :
    ValidProof demoSearch 2 demoGenesisBlock.Hash (CopyTransactionPool demoSearch) 3
      = Except.ok true ∧
    ValidProof demoSearch 2 demoGenesisBlock.Hash (CopyTransactionPool demoSearch) 2
      = Except.ok true :=
  ⟨demo_search_valid,
    (validProof_monotone demoSearch 2 demoGenesisBlock.Hash (CopyTransactionPool demoSearch)).1
      3 2 (by decide) (by decide) (by decide) demo_search_valid⟩

theorem loop_not_panic (s : Blockchain) (previousHash : List Nat)
    (transactions : Option (List Transaction)) :
    ∀ (fuel : Nat) (start : Int),
      ProofOfWork.loop s previousHash transactions fuel start ≠ Except.error Fault.panic := by
  intro fuel
  induction fuel with
  | zero =>
    intro start h
    simp [ProofOfWork.loop] at h
  | succ fuel ih =>
    intro start h
    unfold ProofOfWork.loop at h
    rcases ValidProof_difficulty s start previousHash transactions with hv | hv
    · rw [hv] at h
      cases h
    · rw [hv] at h
      exact ih _ h

/-- C19: `ValidProof` returns a boolean exactly on the difficulties 0 to 64.
For `0 <= d <= 64` the slice `guessHashStr[:d]` of the 64-character string is
in range and a boolean is returned; for `d > 64` (slice out of range) and for
`d < 0` (negative repeat count) the call panics and returns nothing; at the
constant `MINING_DIFFICULTY = 3` it always returns, so the loop of
`ProofOfWork` never ends in that panic. -/
theorem validProof_total_range (s : Blockchain) (nonce : Int) (previousHash : List Nat)
    (transactions : Option (List Transaction)) :
    (∀ d : Int, 0 ≤ d → d ≤ 64 →
      ∃ b, ValidProof s nonce previousHash transactions d = Except.ok b) ∧
    (∀ d : Int, 64 < d →
      ValidProof s nonce previousHash transactions d = Except.error Fault.panic) ∧
    (∀ d : Int, d < 0 →
      ValidProof s nonce previousHash transactions d = Except.error Fault.panic) ∧
    (∃ b, ValidProof s nonce previousHash transactions MINING_DIFFICULTY = Except.ok b) ∧
    (∀ (fuel : Nat) (start : Int),
      ProofOfWork.loop s previousHash transactions fuel start ≠ Except.error Fault.panic) := by
  refine ⟨?_, ?_, ?_, ?_, loop_not_panic s previousHash transactions⟩
  · intro d h0 h64
    exact ⟨_, ValidProof_eq s _ _ _ d h0 h64⟩
  · intro d hd
    unfold ValidProof
    have h1 : ¬ d < 0 := by omega
    have hlen := Hash_hex_length (guessBlock nonce previousHash transactions)
    have h2 : (hex (guessBlock nonce previousHash transactions).Hash).length < d.toNat := by
      rw [hlen]; omega
    unfold guessBlock at h2
    simp only [h1, if_false, h2, if_true]
  · intro d hd
    unfold ValidProof
    simp only [hd, if_true]
  · rcases ValidProof_difficulty s nonce previousHash transactions with h | h
    · exact ⟨_, h⟩
    · exact ⟨_, h⟩

/-- Instance of C19 on the scenario of `main`: the candidate of the first
search at nonce 2 gives a boolean at difficulty 64 and panics at 65 and at -1. -/
theorem validProof_total_range_instance :
    ValidProof demoSearch 2 demoGenesisBlock.Hash (CopyTransactionPool demoSearch) 64
      = Except.ok false ∧
    ValidProof demoSearch 2 demoGenesisBlock.Hash (CopyTransactionPool demoSearch) 65
      = Except.error Fault.panic ∧
    ValidProof demoSearch 2 demoGenesisBlock.Hash (CopyTransactionPool demoSearch) (-1)
      = Except.error Fault.panic :=
  ⟨by decide!,
   (validProof_total_range demoSearch 2 demoGenesisBlock.Hash
     (CopyTransactionPool demoSearch)).2.1 65 (by decide),
   (validProof_total_range demoSearch 2 demoGenesisBlock.Hash
     (CopyTransactionPool demoSearch)).2.2.1 (-1) (by decide)⟩

theorem continueTotal_untouched (a : String) (total : Float32) (ts : List Transaction)
    (h : ∀ t ∈ ts, t.from_ ≠ a ∧ t.to_ ≠ a) : continueTotal a total ts = total := by
  unfold continueTotal
  induction ts generalizing total with
  | nil => rfl
  | cons t ts ih =>
    have ht := h t (List.mem_cons_self _ _)
    rw [List.foldl_cons]
    simp only [if_neg (Ne.symm ht.1), if_neg (Ne.symm ht.2)]
    exact ih total fun u hu => h u (List.mem_cons_of_mem _ hu)

theorem CalculateTotalAmount_append (s : Blockchain) (a : String) (b : Block) :
    CalculateTotalAmount
        { transactionPool := s.transactionPool, chain := s.chain ++ [b],
          blockchainAddress := s.blockchainAddress } a
      = continueTotal a (CalculateTotalAmount s a) (elems b.transactions) := by
  unfold CalculateTotalAmount continueTotal
  simp only [List.foldl_append, List.foldl_cons, List.foldl_nil]

/-- C20: `CalculateTotalAmount` is a left fold that extends with the chain.  For
every state, address `a` and block `b`, the total of `a` over `chain ++ [b]` is
the running sum carried on from the total over `chain` through the
transactions of `b` in order.  In particular, after a mining round that seals
the pool `P`, the total of an address that is neither sender nor receiver of a
transaction of `P` nor of the reward transaction is what it was. -/
theorem calculateTotalAmount_extends (s : Blockchain) (a : String) :
    (∀ b : Block,
      CalculateTotalAmount
          { transactionPool := s.transactionPool, chain := s.chain ++ [b],
            blockchainAddress := s.blockchainAddress } a
        = continueTotal a (CalculateTotalAmount s a) (elems b.transactions)) ∧
    (∀ (fuel : Nat) (now : Int) (r : Bool) (s' : Blockchain),
      Mining fuel now s = Except.ok (r, s') →
      (∀ t ∈ elems s.transactionPool, t.from_ ≠ a ∧ t.to_ ≠ a) →
      a ≠ "THE BLOCKCHAIN" → a ≠ s.blockchainAddress →
      CalculateTotalAmount s' a = CalculateTotalAmount s a) := by
  refine ⟨CalculateTotalAmount_append s a, ?_⟩
  intro fuel now r s' h hP hS hR
  obtain ⟨-, nonce, last, -, -, rfl⟩ := Mining_eq_ok h
  have e := CalculateTotalAmount_append s a (sealedBlock s now nonce last)
  have e2 : CalculateTotalAmount
      { transactionPool := some [], chain := s.chain ++ [sealedBlock s now nonce last],
        blockchainAddress := s.blockchainAddress } a
      = CalculateTotalAmount
      { transactionPool := s.transactionPool, chain := s.chain ++ [sealedBlock s now nonce last],
        blockchainAddress := s.blockchainAddress } a := rfl
  rw [e2, e]
  apply continueTotal_untouched
  intro t ht
  simp only [sealedBlock, elems_some, List.mem_append, List.mem_singleton] at ht
  rcases ht with ht | rfl
  · exact hP t ht
  · exact ⟨Ne.symm hS, Ne.symm hR⟩

theorem demo_second_round :
    Mining 2 1700000000000015892 demoThird = Except.ok (true, demoFinal) := by
  decide!

theorem demo_third_pool :
    ∀ t ∈ elems demoThird.transactionPool, t.from_ ≠ "Alice" ∧ t.to_ ≠ "Alice" := by
  decide!

/-- Witness of C20 on the second mining round of the scenario of `main`, which
seals the transfer from Gabriel to Jessica: the total of Alice stays as it
was. -/
theorem calculateTotalAmount_extends_witness :
    Mining 2 1700000000000015892 demoThird = Except.ok (true, demoFinal) ∧
    CalculateTotalAmount demoFinal "Alice" = CalculateTotalAmount demoThird "Alice" :=
  ⟨demo_second_round,
    (calculateTotalAmount_extends demoThird "Alice").2 2 1700000000000015892 true demoFinal
      demo_second_round demo_third_pool (by decide) (by decide)⟩

theorem demo_alice_total :
    CalculateTotalAmount demoFinal "Alice" = -Float32.ofNat 50 := by
  decide!

theorem demo_ledger :
    ledger "my-blockchain-address" demoCalls =
      [{ from_ := "Alice", to_ := "Bob", amount := Float32.ofNat 100 },
       { from_ := "Bob", to_ := "Alice", amount := Float32.ofNat 50 },
       { from_ := "THE BLOCKCHAIN", to_ := "my-blockchain-address", amount := ⟨false, 127, 0⟩ },
       { from_ := "Gabriel", to_ := "Jessica", amount := Float32.ofNat 250 },
       { from_ := "THE BLOCKCHAIN", to_ := "my-blockchain-address", amount := ⟨false, 127, 0⟩ }] := by
  decide!

end GoBlockchain
